import Mathlib

/-!
Verification of the workflow engine of the `idkit-js` repository
(`src/app/flow/action-nodes.ts`: `FlowExecutor`, `FlowValidator`;
`src/unnamed/part_002`: `WorkflowBuilder`, `Workflow.execute`).

The TypeScript code is shallowly embedded: JS `Map<string, V>` becomes an
association list with insertion-order and update-in-place semantics
(`mapGet` / `mapSet`), wall-clock time (`Date.now()`) becomes an explicit
virtual clock threaded through the execution state, the duration of a step's
outside work is an explicit parameter `dur : WorkflowStep → Nat`, and a JS
exception becomes an `Option String` carrying the thrown error message.
-/

/-- `Map.get` on a JS `Map<string, V>` embedded as an association list. -/
def mapGet {α : Type} (m : List (String × α)) (k : String) : Option α :=
  match m with
  | [] => none
  | (k', v) :: rest => if k' = k then some v else mapGet rest k

/-- `Map.set` on a JS `Map<string, V>`: update in place when the key is
present (keeping its position), otherwise append at the end. -/
def mapSet {α : Type} (m : List (String × α)) (k : String) (v : α) :
    List (String × α) :=
  match m with
  | [] => [(k, v)]
  | (k', v') :: rest =>
      if k' = k then (k, v) :: rest else (k', v') :: mapSet rest k v

/-- Keys of an embedded JS map, in insertion order. -/
def mapKeys {α : Type} (m : List (String × α)) : List String := m.map Prod.fst

/-! ## Data model (`src/unnamed/part_002`, workflow-builder interfaces) -/

/-- `WorkflowStep` from the builder module.  The TS `type` field is a string
union erased at runtime (the executor's `switch` has a defensive `default`
branch), so it is embedded as `String`.  The untyped configuration bag
`config : Record<string, any>` is only ever inspected for presence
(truthiness) by the validator, so it is embedded as a presence flag. -/
structure WorkflowStep where
  id : String
  type : String
  name : String
  config : Bool
  dependencies : List String
  deriving Repr, DecidableEq

/-- Output payloads produced by `FlowExecutor.executeStepByType` (one object
shape per known step type) and by the builder module's placeholder
`executeStep` (which returns `\x7b success: true \x7d`). -/
inductive StepOutput where
  | analyzed
  | fixed
  | tested
  | deployed
  | executed
  | placeholderOk
  deriving Repr, DecidableEq

/-- `StepResult` record.  `output` is `none` for the JS `null`; `error` holds
the message of the attached `Error` object when present. -/
structure StepResult where
  stepId : String
  success : Bool
  output : Option StepOutput
  duration : Nat
  error : Option String
  deriving Repr, DecidableEq

/-- `WorkflowResult` record; `errors` holds the messages of the collected
`Error` objects in order. -/
structure WorkflowResult where
  success : Bool
  stepResults : List (String × StepResult)
  duration : Nat
  errors : List String
  deriving Repr, DecidableEq

/-- The static data of a `Workflow` (its `execute` closure is modelled
separately as `builtExecute`). -/
structure Workflow where
  id : String
  name : String
  description : Option String
  steps : List WorkflowStep
  deriving Repr, DecidableEq

/-! ## FlowExecutor (`src/app/flow/action-nodes.ts`) -/

/-- `ExecutionOptions`, after the constructor has filled in the defaults
(`Required<ExecutionOptions>`). -/
structure ExecutionOptions where
  verbose : Bool
  timeout : Nat
  continueOnError : Bool
  parallel : Bool
  deriving Repr, DecidableEq

/-- The option record produced by `new FlowExecutor(\x7b\x7d)`. -/
def defaultOptions : ExecutionOptions :=
  { verbose := false, timeout := 300000, continueOnError := false,
    parallel := false }

/-- `ExecutionContext` (minus `currentStep`, which is write-only bookkeeping),
extended with the virtual clock `now` standing for `Date.now()`. -/
structure ExecCtx where
  completedSteps : List (String × StepResult)
  startTime : Nat
  now : Nat
  deriving Repr, DecidableEq

/-- `FlowExecutor.executeStepByType`: the `switch` over the step's type tag;
`none` models the thrown `Unknown step type` error of the `default` branch. -/
def executeStepByType (t : String) : Option StepOutput :=
  if t = "analysis" then some .analyzed
  else if t = "fix" then some .fixed
  else if t = "test" then some .tested
  else if t = "deploy" then some .deployed
  else if t = "custom" then some .executed
  else none

/-- `FlowExecutor.dependenciesMet`: every dependency id has a recorded
`StepResult` with `success = true`. -/
def dependenciesMet (step : WorkflowStep)
    (completed : List (String × StepResult)) : Bool :=
  step.dependencies.all fun depId =>
    match mapGet completed depId with
    | some result => result.success
    | none => false

/-- `FlowExecutor.allStepsSucceeded`: every recorded result succeeded. -/
def allStepsSucceeded (results : List (String × StepResult)) : Bool :=
  results.all fun p => p.2.success

/-- `FlowExecutor.executeStep`.  The try/catch catches both the timeout check
(`elapsed > timeout` throws `Workflow execution timeout`) and an unknown step
type, converting either into a failed `StepResult`; a successful run of the
step's body advances the clock by `dur step`. -/
def executeStep (options : ExecutionOptions) (dur : WorkflowStep → Nat)
    (step : WorkflowStep) (ctx : ExecCtx) : StepResult × ExecCtx :=
  let elapsed := ctx.now - ctx.startTime
  if elapsed > options.timeout then
    ({ stepId := step.id, success := false, output := none, duration := 0,
       error := some "Workflow execution timeout" }, ctx)
  else
    match executeStepByType step.type with
    | some out =>
        ({ stepId := step.id, success := true, output := some out,
           duration := dur step, error := none },
         { ctx with now := ctx.now + dur step })
    | none =>
        ({ stepId := step.id, success := false, output := none, duration := 0,
           error := some ("Unknown step type: " ++ step.type) }, ctx)

/-- `FlowExecutor.executeSequential`.  The returned `Option String` is the
message of the exception that escaped the loop (`none` when the loop ran to
completion); the context is returned alongside because the JS context object
keeps its mutations when the exception propagates. -/
def executeSequential (options : ExecutionOptions) (dur : WorkflowStep → Nat) :
    List WorkflowStep → ExecCtx → ExecCtx × Option String
  | [], ctx => (ctx, none)
  | step :: rest, ctx =>
      if dependenciesMet step ctx.completedSteps then
        let r := executeStep options dur step ctx
        let ctx' := { r.2 with
          completedSteps := mapSet r.2.completedSteps step.id r.1 }
        if !r.1.success && !options.continueOnError then
          (ctx', some ("Step failed: " ++ step.name))
        else
          executeSequential options dur rest ctx'
      else
        (ctx, some ("Dependencies not met for step: " ++ step.name))

/-! ## FlowExecutor, parallel mode

`executeParallel` keeps a `pending` set, starts every ready step, and lets a
`.then` completion callback record the result.  In the embedding each started
step completes within its scheduling round (the step bodies are synchronous
here), which matches the JS microtask order: all completion callbacks run
before `Promise.race` resumes the loop.  The `throw` inside the completion
callback of a failed step happens in a promise chain nobody awaits, so it
never reaches the loop or `execute`'s catch; the embedding records those
messages in the ghost field `unhandled`.  The ghost field `trace` records,
for each scheduling round, the ids started and the `completedSteps` map as it
stood when readiness was computed. -/

/-- `steps.find(s => s.id === stepId)!` — the non-null assertion is sound
because `pending` only ever holds ids drawn from `steps`. -/
def findStepById (steps : List WorkflowStep) (stepId : String) : WorkflowStep :=
  (steps.find? fun s => s.id = stepId).getD
    { id := stepId, type := "", name := "", config := false, dependencies := [] }

/-- Start (and, the bodies being synchronous, complete) the ready steps of one
round, running each completion callback: record the result, and when the step
failed with continue-on-error disabled, raise the `Step failed` error as an
unhandled rejection. -/
def runReady (options : ExecutionOptions) (dur : WorkflowStep → Nat)
    (steps : List WorkflowStep) :
    List String → ExecCtx → List String → ExecCtx × List String
  | [], ctx, unh => (ctx, unh)
  | stepId :: rest, ctx, unh =>
      let step := findStepById steps stepId
      let r := executeStep options dur step ctx
      let ctx' := { r.2 with
        completedSteps := mapSet r.2.completedSteps stepId r.1 }
      let unh' :=
        if !r.1.success && !options.continueOnError then
          unh ++ ["Step failed: " ++ step.name]
        else unh
      runReady options dur steps rest ctx' unh'

/-- Result of a parallel run: final context, escaped exception (if any),
unhandled rejections and the round trace. -/
structure ParallelRun where
  ctx : ExecCtx
  err : Option String
  unhandled : List String
  trace : List (List String × List (String × StepResult))
  deriving Repr, DecidableEq

/-- The `while (pending.size > 0 || executing.size > 0)` loop of
`executeParallel`, fuel-indexed (`none` = fuel exhausted; `parallelFuel`
below is proved sufficient). -/
def parallelLoop (options : ExecutionOptions) (dur : WorkflowStep → Nat)
    (steps : List WorkflowStep) :
    Nat → List String → ExecCtx → List String →
      List (List String × List (String × StepResult)) → Option ParallelRun
  | 0, _, _, _, _ => none
  | Nat.succ fuel, pending, ctx, unh, trace =>
      if pending.isEmpty then some ⟨ctx, none, unh, trace⟩
      else
        let ready := pending.filter fun stepId =>
          dependenciesMet (findStepById steps stepId) ctx.completedSteps
        if ready.isEmpty then
          some ⟨ctx, some "Deadlock detected: steps have unmet dependencies",
                unh, trace⟩
        else
          let pre := ctx.completedSteps
          let stepped := runReady options dur steps ready ctx unh
          parallelLoop options dur steps fuel
            (pending.filter fun stepId => !ready.contains stepId)
            stepped.1 stepped.2 (trace ++ [(ready, pre)])

/-- Fuel that `parallelLoop` is run with. -/
def parallelFuel (steps : List WorkflowStep) : Nat := steps.length + 1

/-- `FlowExecutor.executeParallel`, with ghost bookkeeping. -/
def executeParallelFull (options : ExecutionOptions) (dur : WorkflowStep → Nat)
    (steps : List WorkflowStep) (ctx : ExecCtx) : Option ParallelRun :=
  parallelLoop options dur steps (parallelFuel steps)
    (steps.map fun s => s.id) ctx [] []

/-- The mode dispatch inside `FlowExecutor.execute`'s try/catch.  The `.getD`
default for the parallel branch is unreachable (`executeParallelFull_isSome`
below). -/
def executeDispatch (options : ExecutionOptions) (dur : WorkflowStep → Nat)
    (workflow : Workflow) (ctx0 : ExecCtx) : ExecCtx × Option String :=
  if options.parallel then
    let pr := (executeParallelFull options dur workflow.steps ctx0).getD
      ⟨ctx0, none, [], []⟩
    (pr.ctx, pr.err)
  else
    executeSequential options dur workflow.steps ctx0

/-- The tail of `FlowExecutor.execute`: catch the escaped exception into
`errors` and aggregate the `WorkflowResult`. -/
def aggregateResult (outcome : ExecCtx × Option String) (startClock : Nat) :
    WorkflowResult :=
  let errors := match outcome.2 with
    | some e => [e]
    | none => []
  { success := errors.isEmpty && allStepsSucceeded outcome.1.completedSteps,
    stepResults := outcome.1.completedSteps,
    duration := outcome.1.now - startClock,
    errors := errors }

/-- `FlowExecutor.execute`: build the context, dispatch on the `parallel`
option, and aggregate. -/
def FlowExecutor.execute (options : ExecutionOptions)
    (dur : WorkflowStep → Nat) (workflow : Workflow) (startClock : Nat) :
    WorkflowResult :=
  aggregateResult
    (executeDispatch options dur workflow
      { completedSteps := [], startTime := startClock, now := startClock })
    startClock

/-! ## WorkflowBuilder (`src/unnamed/part_002`)

The builder's mutable `steps` array is passed explicitly: each fluent call
maps the current step list to the extended one. -/

/-- The auto-generated id of the next step added by the builder. -/
def genStepId (steps : List WorkflowStep) : String :=
  "step_" ++ toString (steps.length + 1)

/-- `const prevStepId = this.steps.length > 0
  ? this.steps[this.steps.length - 1].id : ''`. -/
def prevStepId (steps : List WorkflowStep) : String :=
  match steps.getLast? with
  | some s => s.id
  | none => ""

/-- `prevStepId ? [prevStepId] : []` (the empty string is falsy). -/
def chainDeps (steps : List WorkflowStep) : List String :=
  if prevStepId steps = "" then [] else [prevStepId steps]

/-- `WorkflowBuilder.addAnalysisStep` (its dependency list is the literal
`[]` in the source). -/
def addAnalysisStep (steps : List WorkflowStep) : List WorkflowStep :=
  steps ++ [{ id := genStepId steps, type := "analysis",
              name := "Code Analysis", config := true, dependencies := [] }]

/-- `WorkflowBuilder.addAutoFixStep`. -/
def addAutoFixStep (steps : List WorkflowStep) : List WorkflowStep :=
  steps ++ [{ id := genStepId steps, type := "fix", name := "Auto Fix",
              config := true, dependencies := chainDeps steps }]

/-- `WorkflowBuilder.addTestStep`. -/
def addTestStep (steps : List WorkflowStep) : List WorkflowStep :=
  steps ++ [{ id := genStepId steps, type := "test", name := "Run Tests",
              config := true, dependencies := chainDeps steps }]

/-- `WorkflowBuilder.addDeployStep`. -/
def addDeployStep (steps : List WorkflowStep) : List WorkflowStep :=
  steps ++ [{ id := genStepId steps, type := "deploy", name := "Deploy",
              config := true, dependencies := chainDeps steps }]

/-- `WorkflowBuilder.addCustomStep` (explicit name and dependency list, no
automatic chaining). -/
def addCustomStep (steps : List WorkflowStep) (name : String)
    (dependencies : List String) : List WorkflowStep :=
  steps ++ [{ id := genStepId steps, type := "custom", name := name,
              config := true, dependencies := dependencies }]

/-- `WorkflowBuilder.build` minus the `execute` closure; `ts` is the
`Date.now()` value captured by the constructor for the workflow id. -/
def WorkflowBuilder.build (ts : Nat) (name : String)
    (description : Option String) (steps : List WorkflowStep) : Workflow :=
  { id := "workflow_" ++ toString ts, name := name,
    description := description, steps := steps }

/-- First dependency of a step that is missing from the result map or
recorded as failed — the one whose check throws in `Workflow.execute`. -/
def firstUnmetDep (deps : List String)
    (results : List (String × StepResult)) : Option String :=
  deps.find? fun depId =>
    match mapGet results depId with
    | some r => !r.success
    | none => true

/-- The loop body of the built workflow's `execute` closure
(`src/unnamed/part_002`, lines 170–203): check dependencies, run the
placeholder step executor (which always succeeds), record exactly one
`StepResult`, push failures onto `errors`, and never break out. -/
def builtExecLoop (dur : WorkflowStep → Nat) :
    List WorkflowStep → List (String × StepResult) → List String → Nat →
      List (String × StepResult) × List String × Nat
  | [], results, errs, now => (results, errs, now)
  | step :: rest, results, errs, now =>
      match firstUnmetDep step.dependencies results with
      | some depId =>
          let msg := "Dependency " ++ depId ++ " failed or not completed"
          builtExecLoop dur rest
            (mapSet results step.id
              { stepId := step.id, success := false, output := none,
                duration := 0, error := some msg })
            (errs ++ [msg]) now
      | none =>
          builtExecLoop dur rest
            (mapSet results step.id
              { stepId := step.id, success := true,
                output := some .placeholderOk, duration := dur step,
                error := none })
            errs (now + dur step)

/-- The built workflow's `execute` closure.  Note its overall success flag is
`errors.length === 0` (not the executor's conjunction). -/
def builtExecute (dur : WorkflowStep → Nat) (steps : List WorkflowStep)
    (startClock : Nat) : WorkflowResult :=
  let out := builtExecLoop dur steps [] [] startClock
  { success := out.2.1.isEmpty, stepResults := out.1,
    duration := out.2.2 - startClock, errors := out.2.1 }

/-! ## Cycle detection

Two independent DFS implementations exist in the source: the validator's
`detectCircularDependencies` (with `path`/`cycles` bookkeeping) and the
builder's `hasCycle` inside `WorkflowBuilder.validate`.  Both are embedded
with an explicit recursion-depth fuel; `cycleFuel` is proved sufficient
below, and fuel exhaustion is signalled by `none`. -/

/-- Mutable state of the validator's DFS (`visited`, `recursionStack`,
`path`, `cycles`). -/
structure DfsSt where
  visited : List String
  recStack : List String
  path : List String
  cycles : List String
  deriving Repr, DecidableEq

/-- `path.slice(path.indexOf(n))` with JS semantics: when `n` is absent,
`indexOf` is `-1` and `slice(-1)` keeps only the last element. -/
def pathSliceFrom (path : List String) (n : String) : List String :=
  if path.contains n then path.drop (path.findIdx fun x => x = n)
  else path.drop (path.length - 1)

/-- Record the cycle found when an edge reaches `n` on the recursion stack:
`cycles.push(path.slice(cycleStart).join(' -> '))`. -/
def pushCycleSt (st : DfsSt) (n : String) : DfsSt :=
  { st with cycles :=
      st.cycles ++ [String.intercalate " -> " (pathSliceFrom st.path n)] }

/-- One iteration of the validator DFS's `for (const neighbor of neighbors)`
loop, as a fold step: a found cycle (`true`) or exhausted fuel (`none`)
short-circuits the rest of the loop. -/
def dfsStep (f : String → DfsSt → Option (Bool × DfsSt))
    (acc : Option (Bool × DfsSt)) (n : String) : Option (Bool × DfsSt) :=
  match acc with
  | none => none
  | some (true, st) => some (true, st)
  | some (false, st) =>
      if !st.visited.contains n then f n st
      else if st.recStack.contains n then some (true, pushCycleSt st n)
      else some (false, st)

/-- The validator's recursive `dfs` closure over the dependency graph. -/
def dfsVisit (graph : List (String × List String)) :
    Nat → String → DfsSt → Option (Bool × DfsSt)
  | 0, _, _ => none
  | Nat.succ fuel, nodeId, st =>
      let st1 : DfsSt := { st with visited := nodeId :: st.visited,
                                   recStack := nodeId :: st.recStack,
                                   path := st.path ++ [nodeId] }
      match ((mapGet graph nodeId).getD []).foldl
          (dfsStep fun n s => dfsVisit graph fuel n s) (some (false, st1)) with
      | none => none
      | some (true, st2) => some (true, st2)
      | some (false, st2) =>
          some (false, { st2 with recStack := st2.recStack.erase nodeId,
                                  path := st2.path.dropLast })

/-- The validator's root loop: run the DFS from every not-yet-visited step,
with a fresh `path` per root (`dfs(step.id, [])`); `visited`, `recStack`
leftovers and `cycles` persist across roots, as in the source. -/
def detectRootsLoop (graph : List (String × List String)) (fuel : Nat) :
    List WorkflowStep → DfsSt → Option DfsSt
  | [], st => some st
  | step :: rest, st =>
      if st.visited.contains step.id then detectRootsLoop graph fuel rest st
      else
        match dfsVisit graph fuel step.id { st with path := [] } with
        | none => none
        | some (_, st2) => detectRootsLoop graph fuel rest st2

/-- The dependency graph `Map` built by `detectCircularDependencies`
(`Map.set` semantics: a duplicated step id keeps the last dependency list). -/
def graphOf (steps : List WorkflowStep) : List (String × List String) :=
  steps.foldl (fun g s => mapSet g s.id s.dependencies) []

/-- Every id that can ever enter the DFS state. -/
def cycleUniv (steps : List WorkflowStep) : List String :=
  steps.map (fun s => s.id) ++ steps.flatMap fun s => s.dependencies

/-- Fuel used for both DFS embeddings; sufficient because each nested visit
targets a fresh unvisited id of `cycleUniv`. -/
def cycleFuel (steps : List WorkflowStep) : Nat :=
  (cycleUniv steps).length + 1

/-- `FlowValidator.detectCircularDependencies` (fuel-explicit form). -/
def detectCircularDependenciesO (steps : List WorkflowStep) :
    Option (List String) :=
  (detectRootsLoop (graphOf steps) (cycleFuel steps) steps
    ⟨[], [], [], []⟩).map fun st => st.cycles

/-- `FlowValidator.detectCircularDependencies`. -/
def detectCircularDependencies (steps : List WorkflowStep) : List String :=
  (detectCircularDependenciesO steps).getD []

/-- Mutable state of the builder's `hasCycle` DFS. -/
structure BuilderDfsSt where
  visited : List String
  recStack : List String
  deriving Repr, DecidableEq

/-- One iteration of the builder DFS's `for (const depId of
step.dependencies)` loop, as a fold step. -/
def builderDfsStep (f : String → BuilderDfsSt → Option (Bool × BuilderDfsSt))
    (acc : Option (Bool × BuilderDfsSt)) (n : String) :
    Option (Bool × BuilderDfsSt) :=
  match acc with
  | none => none
  | some (true, st) => some (true, st)
  | some (false, st) =>
      if !st.visited.contains n then f n st
      else if st.recStack.contains n then some (true, st)
      else some (false, st)

/-- The builder's recursive `hasCycle` closure.  Its adjacency is
`this.steps.find(s => s.id === stepId)` (first match; an absent step skips
the loop). -/
def builderHasCycle (steps : List WorkflowStep) :
    Nat → String → BuilderDfsSt → Option (Bool × BuilderDfsSt)
  | 0, _, _ => none
  | Nat.succ fuel, stepId, st =>
      let st1 : BuilderDfsSt := ⟨stepId :: st.visited, stepId :: st.recStack⟩
      let deps := match steps.find? fun s => s.id = stepId with
        | some s => s.dependencies
        | none => []
      match deps.foldl
          (builderDfsStep fun n s => builderHasCycle steps fuel n s)
          (some (false, st1)) with
      | none => none
      | some (true, st2) => some (true, st2)
      | some (false, st2) =>
          some (false, { st2 with recStack := st2.recStack.erase stepId })

/-- The builder's root loop: `break` after the first root reporting a
cycle. -/
def builderRootsLoop (steps : List WorkflowStep) (fuel : Nat) :
    List WorkflowStep → BuilderDfsSt → Option Bool
  | [], _ => some false
  | step :: rest, st =>
      if st.visited.contains step.id then builderRootsLoop steps fuel rest st
      else
        match builderHasCycle steps fuel step.id st with
        | none => none
        | some (true, _) => some true
        | some (false, st2) => builderRootsLoop steps fuel rest st2

/-- `WorkflowBuilder.validate` (fuel-explicit form). -/
def WorkflowBuilder.validateO (steps : List WorkflowStep) :
    Option (Bool × List String) :=
  let errs0 := if steps.isEmpty then ["Workflow must have at least one step"]
               else []
  (builderRootsLoop steps (cycleFuel steps) steps ⟨[], []⟩).map fun found =>
    let errs := if found then
        errs0 ++ ["Workflow contains circular dependencies"]
      else errs0
    (errs.isEmpty, errs)

/-- `WorkflowBuilder.validate`: `\x7b valid, errors \x7d`. -/
def WorkflowBuilder.validate (steps : List WorkflowStep) :
    Bool × List String :=
  (WorkflowBuilder.validateO steps).getD (true, [])

/-! ## FlowValidator (`src/app/flow/action-nodes.ts`) -/

/-- `ValidationError` (`severity` is the constant `'error'` and is dropped);
`stepId` is `none` for workflow-level errors. -/
structure ValidationError where
  message : String
  code : String
  stepId : Option String
  deriving Repr, DecidableEq

/-- `ValidationWarning` (severity dropped as above). -/
structure ValidationWarning where
  message : String
  code : String
  stepId : Option String
  deriving Repr, DecidableEq

/-- `ValidationResult`. -/
structure ValidationResult where
  valid : Bool
  errors : List ValidationError
  warnings : List ValidationWarning
  deriving Repr, DecidableEq

/-- The check `!s || s.trim().length === 0` (name missing or
whitespace-only): a string trims to the empty string exactly when every one
of its characters is whitespace, and the empty string is also blank. -/
def isBlank (s : String) : Bool := s.data.all fun c => c.isWhitespace

/-- `FlowValidator.validateStep`: basic field checks then dependency
existence (`allSteps.some(s => s.id === depId)`), in source order. -/
def FlowValidator.validateStep (step : WorkflowStep)
    (allSteps : List WorkflowStep) : ValidationResult :=
  let errors : List ValidationError :=
    (if step.id = "" then
      [⟨"Step must have an ID", "MISSING_STEP_ID", some step.id⟩] else []) ++
    (if isBlank step.name then
      [⟨"Step must have a name", "MISSING_STEP_NAME", some step.id⟩]
     else []) ++
    (if step.type = "" then
      [⟨"Step must have a type", "MISSING_STEP_TYPE", some step.id⟩]
     else []) ++
    ((step.dependencies.filter fun depId =>
        !allSteps.any fun s => s.id = depId).map fun depId =>
      ⟨"Step depends on non-existent step: " ++ depId, "INVALID_DEPENDENCY",
       some step.id⟩)
  let warnings : List ValidationWarning :=
    if !step.config then
      [⟨"Step has no configuration", "NO_CONFIG", some step.id⟩] else []
  { valid := errors.isEmpty, errors := errors, warnings := warnings }

/-- `FlowValidator.validate`: workflow-level field checks, per-step checks,
then the circular-dependency check, pushing errors in source order. -/
def FlowValidator.validate (workflow : Workflow) : ValidationResult :=
  let structuralErrors : List ValidationError :=
    (if workflow.id = "" then
      [⟨"Workflow must have an ID", "MISSING_ID", none⟩] else []) ++
    (if isBlank workflow.name then
      [⟨"Workflow must have a name", "MISSING_NAME", none⟩] else []) ++
    (if workflow.steps.isEmpty then
      [⟨"Workflow must have at least one step", "NO_STEPS", none⟩] else [])
  let stepErrors : List ValidationError :=
    workflow.steps.flatMap fun s =>
      (FlowValidator.validateStep s workflow.steps).errors
  let warnings : List ValidationWarning :=
    workflow.steps.flatMap fun s =>
      (FlowValidator.validateStep s workflow.steps).warnings
  let cycles := detectCircularDependencies workflow.steps
  let cycleErrors : List ValidationError :=
    if !cycles.isEmpty then
      [⟨"Circular dependencies detected: " ++ String.intercalate ", " cycles,
        "CIRCULAR_DEPS", none⟩]
    else []
  let errors := structuralErrors ++ stepErrors ++ cycleErrors
  { valid := errors.isEmpty, errors := errors, warnings := warnings }

/-- Spec-side predicate for the parallel scheduler's trace: every step id
started in a round had all its declared dependencies recorded successful in
the `completedSteps` map as it stood when that round computed readiness. -/
def traceRespectsDeps (steps : List WorkflowStep)
    (trace : List (List String × List (String × StepResult))) : Bool :=
  trace.all fun entry =>
    entry.1.all fun stepId =>
      dependenciesMet (findStepById steps stepId) entry.2

/-- Termination measure for the DFS embeddings: the number of ids of the
universe `U` not yet visited. -/
def dfsMeasure (U : Finset String) (visited : List String) : Nat :=
  (U.filter fun x => x ∉ visited).card

/-- Projection of the validator's DFS state onto the builder's (the builder
keeps no `path`/`cycles` bookkeeping). -/
def bproj (st : DfsSt) : BuilderDfsSt := ⟨st.visited, st.recStack⟩

/-! ## Claim theorems -/

theorem mapGet_mapSet_self {α : Type} (m : List (String × α)) (k : String)
    (v : α) : mapGet (mapSet m k v) k = some v := by
  induction m with
  | nil => simp [mapGet, mapSet]
  | cons p rest ih =>
      obtain ⟨k', v'⟩ := p
      by_cases h : k' = k
      · simp [mapGet, mapSet, h]
      · simp [mapGet, mapSet, h, ih]

theorem mapGet_mapSet_ne {α : Type} (m : List (String × α)) (k k' : String)
    (v : α) (h : k ≠ k') : mapGet (mapSet m k v) k' = mapGet m k' := by
  induction m with
  | nil => simp [mapGet, mapSet, h]
  | cons p rest ih =>
      obtain ⟨k₀, v₀⟩ := p
      by_cases h0 : k₀ = k
      · subst h0
        simp [mapGet, mapSet, h]
      · simp only [mapSet, if_neg h0]
        by_cases h1 : k₀ = k'
        · simp [mapGet, h1]
        · simp [mapGet, h1, ih]

/-- C1: for every workflow execution via `FlowExecutor.execute`, the returned
`WorkflowResult`'s success flag is true iff the collected error list is empty
and every recorded `StepResult` has `success = true`. -/
theorem execute_success_iff_no_errors_and_all_steps_ok
    (options : ExecutionOptions) (dur : WorkflowStep → Nat)
    (workflow : Workflow) (startClock : Nat) :
    (FlowExecutor.execute options dur workflow startClock).success = true ↔
      (FlowExecutor.execute options dur workflow startClock).errors = [] ∧
      ∀ p ∈ (FlowExecutor.execute options dur workflow startClock).stepResults,
        p.2.success = true := by
  unfold FlowExecutor.execute
  rcases h : executeDispatch options dur workflow
      { completedSteps := [], startTime := startClock, now := startClock }
    with ⟨ctx, err⟩
  cases err <;>
    simp [aggregateResult, allStepsSucceeded, List.all_eq_true]

/-- Closed instance of `execute_success_iff_no_errors_and_all_steps_ok` at a
concrete one-step workflow. -/
theorem execute_success_iff_no_errors_and_all_steps_ok_witness :
    (FlowExecutor.execute defaultOptions (fun _ => 0)
      ⟨"w", "w", none, [⟨"A", "test", "Run Tests", true, []⟩]⟩ 0).success
      = true :=
  (execute_success_iff_no_errors_and_all_steps_ok defaultOptions (fun _ => 0)
    ⟨"w", "w", none, [⟨"A", "test", "Run Tests", true, []⟩]⟩ 0).mpr
    ⟨by decide, by decide⟩

/-- C2: in sequential mode with continue-on-error disabled, when step B of a
chain A→B→C fails (its type tag is unknown to the executor), C is never
attempted: the result is overall-failed, its map holds A's success and B's
failure (exactly one failed `StepResult`), and no entry for C. -/
theorem sequential_fail_fast_three_chain
    (options : ExecutionOptions) (dur : WorkflowStep → Nat)
    (A B C : WorkflowStep) (wid wname : String) (descr : Option String)
    (c : Nat)
    (hPar : options.parallel = false)
    (hCont : options.continueOnError = false)
    (hdA : A.dependencies = [])
    (hdB : B.dependencies = [A.id])
    (_hdC : C.dependencies = [B.id])
    (hAB : A.id ≠ B.id) (hCA : C.id ≠ A.id) (hCB : C.id ≠ B.id)
    (out : StepOutput) (hA : executeStepByType A.type = some out)
    (hB : executeStepByType B.type = none)
    (hT : dur A ≤ options.timeout) :
    FlowExecutor.execute options dur ⟨wid, wname, descr, [A, B, C]⟩ c =
      { success := false,
        stepResults :=
          [(A.id, ⟨A.id, true, some out, dur A, none⟩),
           (B.id, ⟨B.id, false, none, 0,
                   some ("Unknown step type: " ++ B.type)⟩)],
        duration := dur A,
        errors := ["Step failed: " ++ B.name] } ∧
    mapGet (FlowExecutor.execute options dur
      ⟨wid, wname, descr, [A, B, C]⟩ c).stepResults C.id = none ∧
    ((FlowExecutor.execute options dur
      ⟨wid, wname, descr, [A, B, C]⟩ c).stepResults.filter
        fun p => !p.2.success).length = 1 := by
  have hAC : A.id ≠ C.id := Ne.symm hCA
  have hBC : B.id ≠ C.id := Ne.symm hCB
  have hT' : ¬ dur A > options.timeout := not_lt.mpr hT
  have hmain : FlowExecutor.execute options dur
      ⟨wid, wname, descr, [A, B, C]⟩ c =
      { success := false,
        stepResults :=
          [(A.id, ⟨A.id, true, some out, dur A, none⟩),
           (B.id, ⟨B.id, false, none, 0,
                   some ("Unknown step type: " ++ B.type)⟩)],
        duration := dur A,
        errors := ["Step failed: " ++ B.name] } := by
    unfold FlowExecutor.execute executeDispatch
    simp only [hPar, Bool.false_eq_true, if_false]
    simp [executeSequential, executeStep, dependenciesMet, mapGet, mapSet,
      aggregateResult, allStepsSucceeded, hdA, hdB, hA, hB, hCont, hAB,
      hT', Nat.sub_self, Nat.add_sub_cancel_left]
  refine ⟨hmain, ?_, ?_⟩
  · rw [hmain]
    simp [mapGet, hAC, hBC]
  · rw [hmain]
    simp

/-- Closed instance of `sequential_fail_fast_three_chain`: with the default
options, the chain A→B→C where B's type is unknown leaves no entry for C in
the result map. -/
theorem sequential_fail_fast_three_chain_witness :
    mapGet (FlowExecutor.execute ⟨false, 300000, false, false⟩ (fun _ => 1)
      ⟨"w", "W", none,
       [⟨"A", "analysis", "Analyze", true, []⟩,
        ⟨"B", "bogus", "Broken", true, ["A"]⟩,
        ⟨"C", "test", "Test", true, ["B"]⟩]⟩ 0).stepResults "C" = none :=
  (sequential_fail_fast_three_chain ⟨false, 300000, false, false⟩
    (fun _ => 1)
    ⟨"A", "analysis", "Analyze", true, []⟩
    ⟨"B", "bogus", "Broken", true, ["A"]⟩
    ⟨"C", "test", "Test", true, ["B"]⟩
    "w" "W" none 0 rfl rfl rfl rfl rfl (by decide) (by decide) (by decide)
    StepOutput.analyzed (by decide) (by decide) (by decide)).2.1

/-- C5 counterexample: in the chain A→B→C with B failing and
continue-on-error enabled, `FlowExecutor` does NOT record a failed
`StepResult` for C — the dependency-not-met condition is thrown as a
run-level error ("Dependencies not met for step: C name") and C is absent
from the result map, refuting the claim that every step with a missing or
failed dependency receives a failed `StepResult`. -/
theorem sequential_dependency_not_met_no_step_result_cex :
    mapGet (FlowExecutor.execute ⟨false, 300000, true, false⟩ (fun _ => 1)
      ⟨"w", "W", none,
       [⟨"A", "analysis", "Analyze", true, []⟩,
        ⟨"B", "bogus", "Broken", true, ["A"]⟩,
        ⟨"C", "test", "Test", true, ["B"]⟩]⟩ 0).stepResults "C" = none ∧
    (FlowExecutor.execute ⟨false, 300000, true, false⟩ (fun _ => 1)
      ⟨"w", "W", none,
       [⟨"A", "analysis", "Analyze", true, []⟩,
        ⟨"B", "bogus", "Broken", true, ["A"]⟩,
        ⟨"C", "test", "Test", true, ["B"]⟩]⟩ 0).errors =
      ["Dependencies not met for step: Test"] := by
  constructor <;> decide

/-- C5 amended: in `FlowExecutor`'s sequential mode a dependency-not-met
condition is a run-level failure, not a step-level one: in the chain A→B→C
where B fails under continue-on-error = true, the run does reach C, but then
aborts with the error `Dependencies not met for step: <C name>` in the
result's error list; C is not executed and receives no `StepResult`, and
overall success is false. -/
theorem sequential_dependency_not_met_aborts_run
    (options : ExecutionOptions) (dur : WorkflowStep → Nat)
    (A B C : WorkflowStep) (wid wname : String) (descr : Option String)
    (c : Nat)
    (hPar : options.parallel = false)
    (hCont : options.continueOnError = true)
    (hdA : A.dependencies = [])
    (hdB : B.dependencies = [A.id])
    (hdC : C.dependencies = [B.id])
    (hAB : A.id ≠ B.id) (hCA : C.id ≠ A.id) (hCB : C.id ≠ B.id)
    (out : StepOutput) (hA : executeStepByType A.type = some out)
    (hB : executeStepByType B.type = none)
    (hT : dur A ≤ options.timeout) :
    FlowExecutor.execute options dur ⟨wid, wname, descr, [A, B, C]⟩ c =
      { success := false,
        stepResults :=
          [(A.id, ⟨A.id, true, some out, dur A, none⟩),
           (B.id, ⟨B.id, false, none, 0,
                   some ("Unknown step type: " ++ B.type)⟩)],
        duration := dur A,
        errors := ["Dependencies not met for step: " ++ C.name] } ∧
    mapGet (FlowExecutor.execute options dur
      ⟨wid, wname, descr, [A, B, C]⟩ c).stepResults C.id = none := by
  have hAC : A.id ≠ C.id := Ne.symm hCA
  have hBC : B.id ≠ C.id := Ne.symm hCB
  have hT' : ¬ dur A > options.timeout := not_lt.mpr hT
  have hmain : FlowExecutor.execute options dur
      ⟨wid, wname, descr, [A, B, C]⟩ c =
      { success := false,
        stepResults :=
          [(A.id, ⟨A.id, true, some out, dur A, none⟩),
           (B.id, ⟨B.id, false, none, 0,
                   some ("Unknown step type: " ++ B.type)⟩)],
        duration := dur A,
        errors := ["Dependencies not met for step: " ++ C.name] } := by
    unfold FlowExecutor.execute executeDispatch
    simp only [hPar, Bool.false_eq_true, if_false]
    simp [executeSequential, executeStep, dependenciesMet, mapGet, mapSet,
      aggregateResult, allStepsSucceeded, hdA, hdB, hdC, hA, hB, hCont, hAB,
      hT', Nat.sub_self, Nat.add_sub_cancel_left]
  refine ⟨hmain, ?_⟩
  rw [hmain]
  simp [mapGet, hAC, hBC]

/-- Closed instance of `sequential_dependency_not_met_aborts_run`. -/
theorem sequential_dependency_not_met_aborts_run_witness :
    mapGet (FlowExecutor.execute ⟨false, 300000, true, false⟩ (fun _ => 2)
      ⟨"w2", "W2", none,
       [⟨"A", "analysis", "Analyze", true, []⟩,
        ⟨"B", "bogus", "Broken", true, ["A"]⟩,
        ⟨"C", "test", "Test", true, ["B"]⟩]⟩ 5).stepResults "C" = none :=
  (sequential_dependency_not_met_aborts_run ⟨false, 300000, true, false⟩
    (fun _ => 2)
    ⟨"A", "analysis", "Analyze", true, []⟩
    ⟨"B", "bogus", "Broken", true, ["A"]⟩
    ⟨"C", "test", "Test", true, ["B"]⟩
    "w2" "W2" none 5 rfl rfl rfl rfl rfl (by decide) (by decide) (by decide)
    StepOutput.analyzed (by decide) (by decide) (by decide)).2

/-- C6 counterexample: with timeout 3 and a first step taking 5, the timeout
has been exceeded before step B starts, yet B is recorded in the step-result
map (as a failed `StepResult` carrying the timeout error) — refuting the
claim that the step is absent from the map; the error list carries the
generic step-failure error, not a timeout error. -/
theorem timeout_step_recorded_cex :
    mapGet (FlowExecutor.execute ⟨false, 3, false, false⟩ (fun _ => 5)
      ⟨"w", "W", none,
       [⟨"A", "test", "TA", true, []⟩,
        ⟨"B", "test", "TB", true, []⟩,
        ⟨"C", "test", "TC", true, []⟩]⟩ 0).stepResults "B" =
      some ⟨"B", false, none, 0, some "Workflow execution timeout"⟩ ∧
    (FlowExecutor.execute ⟨false, 3, false, false⟩ (fun _ => 5)
      ⟨"w", "W", none,
       [⟨"A", "test", "TA", true, []⟩,
        ⟨"B", "test", "TB", true, []⟩,
        ⟨"C", "test", "TC", true, []⟩]⟩ 0).errors = ["Step failed: TB"] := by
  constructor <;> decide

/-- C6 amended: when the configured timeout is already exceeded before a step
starts (sequential mode, continue-on-error disabled), that step is recorded
in the map as a failed `StepResult` whose error is `Workflow execution
timeout`; the run then stops with the step-failure error in the error list,
strictly later steps are absent from the map, and overall success is
false. -/
theorem timeout_before_step_records_failed_step_result
    (options : ExecutionOptions) (dur : WorkflowStep → Nat)
    (A B C : WorkflowStep) (wid wname : String) (descr : Option String)
    (c : Nat)
    (hPar : options.parallel = false)
    (hCont : options.continueOnError = false)
    (hdA : A.dependencies = [])
    (hdB : B.dependencies = [])
    (hAB : A.id ≠ B.id) (hCA : C.id ≠ A.id) (hCB : C.id ≠ B.id)
    (out : StepOutput) (hA : executeStepByType A.type = some out)
    (hT : dur A > options.timeout) :
    FlowExecutor.execute options dur ⟨wid, wname, descr, [A, B, C]⟩ c =
      { success := false,
        stepResults :=
          [(A.id, ⟨A.id, true, some out, dur A, none⟩),
           (B.id, ⟨B.id, false, none, 0,
                   some "Workflow execution timeout"⟩)],
        duration := dur A,
        errors := ["Step failed: " ++ B.name] } ∧
    mapGet (FlowExecutor.execute options dur
      ⟨wid, wname, descr, [A, B, C]⟩ c).stepResults C.id = none := by
  have hAC : A.id ≠ C.id := Ne.symm hCA
  have hBC : B.id ≠ C.id := Ne.symm hCB
  have hmain : FlowExecutor.execute options dur
      ⟨wid, wname, descr, [A, B, C]⟩ c =
      { success := false,
        stepResults :=
          [(A.id, ⟨A.id, true, some out, dur A, none⟩),
           (B.id, ⟨B.id, false, none, 0,
                   some "Workflow execution timeout"⟩)],
        duration := dur A,
        errors := ["Step failed: " ++ B.name] } := by
    unfold FlowExecutor.execute executeDispatch
    simp only [hPar, Bool.false_eq_true, if_false]
    simp [executeSequential, executeStep, dependenciesMet, mapGet, mapSet,
      aggregateResult, allStepsSucceeded, hdA, hdB, hA, hCont, hAB, hT,
      Nat.sub_self, Nat.add_sub_cancel_left]
  refine ⟨hmain, ?_⟩
  rw [hmain]
  simp [mapGet, hAC, hBC]

/-- Closed instance of `timeout_before_step_records_failed_step_result`. -/
theorem timeout_before_step_records_failed_step_result_witness :
    mapGet (FlowExecutor.execute ⟨false, 3, false, false⟩ (fun _ => 5)
      ⟨"w", "W", none,
       [⟨"A", "test", "TA", true, []⟩,
        ⟨"B", "test", "TB", true, []⟩,
        ⟨"C", "test", "TC", true, []⟩]⟩ 0).stepResults "C" = none :=
  (timeout_before_step_records_failed_step_result ⟨false, 3, false, false⟩
    (fun _ => 5)
    ⟨"A", "test", "TA", true, []⟩
    ⟨"B", "test", "TB", true, []⟩
    ⟨"C", "test", "TC", true, []⟩
    "w" "W" none 0 rfl rfl rfl rfl (by decide) (by decide) (by decide)
    StepOutput.tested (by decide) (by decide)).2

/-- Each scheduling round only starts steps whose dependencies are met, so
the round trace always respects dependencies. -/
theorem parallelLoop_traceRespectsDeps (options : ExecutionOptions)
    (dur : WorkflowStep → Nat) (steps : List WorkflowStep) :
    ∀ (fuel : Nat) (pending : List String) (ctx : ExecCtx)
      (unh : List String)
      (trace : List (List String × List (String × StepResult)))
      (pr : ParallelRun),
      parallelLoop options dur steps fuel pending ctx unh trace = some pr →
      traceRespectsDeps steps trace = true →
      traceRespectsDeps steps pr.trace = true := by
  intro fuel
  induction fuel with
  | zero =>
      intro pending ctx unh trace pr h
      simp [parallelLoop] at h
  | succ fuel ih =>
      intro pending ctx unh trace pr h htr
      simp only [parallelLoop] at h
      by_cases hp : pending.isEmpty
      · rw [if_pos hp] at h
        obtain rfl : (⟨ctx, none, unh, trace⟩ : ParallelRun) = pr :=
          Option.some.inj h
        exact htr
      · rw [if_neg hp] at h
        by_cases hr : (pending.filter fun stepId =>
            dependenciesMet (findStepById steps stepId)
              ctx.completedSteps).isEmpty
        · rw [if_pos hr] at h
          obtain rfl :
              (⟨ctx, some "Deadlock detected: steps have unmet dependencies",
                unh, trace⟩ : ParallelRun) = pr := Option.some.inj h
          exact htr
        · rw [if_neg hr] at h
          refine ih _ _ _ _ _ h ?_
          simp only [traceRespectsDeps, List.all_append, List.all_cons,
            List.all_nil, Bool.and_true, Bool.and_eq_true]
          refine ⟨htr, ?_⟩
          simp only [List.all_eq_true]
          intro stepId hmem
          exact (List.mem_filter.mp hmem).2

/-- C3: in parallel (dependency-driven) mode a step is never started before
every declared dependency has a recorded successful `StepResult` (the whole
round trace respects dependencies), and the diamond workflow (A; B and C
depend on A; D depends on B and C) is scheduled as the rounds
`[A]`, `[B, C]`, `[D]`. -/
theorem parallel_starts_only_steps_with_met_dependencies :
    (∀ (options : ExecutionOptions) (dur : WorkflowStep → Nat)
       (steps : List WorkflowStep) (ctx : ExecCtx) (pr : ParallelRun),
       executeParallelFull options dur steps ctx = some pr →
       traceRespectsDeps steps pr.trace = true) ∧
    (executeParallelFull ⟨false, 300000, false, true⟩ (fun _ => 0)
       [⟨"A", "analysis", "NA", true, []⟩, ⟨"B", "fix", "NB", true, ["A"]⟩,
        ⟨"C", "test", "NC", true, ["A"]⟩,
        ⟨"D", "deploy", "ND", true, ["B", "C"]⟩]
       ⟨[], 0, 0⟩).map (fun pr => (pr.trace.map Prod.fst, pr.err)) =
      some ([["A"], ["B", "C"], ["D"]], none) := by
  constructor
  · intro options dur steps ctx pr h
    exact parallelLoop_traceRespectsDeps options dur steps _ _ _ _ _ _ h rfl
  · decide

/-- Closed instance of `parallel_starts_only_steps_with_met_dependencies` at
a one-step workflow. -/
theorem parallel_starts_only_steps_with_met_dependencies_witness :
    traceRespectsDeps [⟨"A", "analysis", "NA", true, []⟩]
      [(["A"], [])] = true :=
  parallel_starts_only_steps_with_met_dependencies.1
    ⟨false, 300000, false, true⟩ (fun _ => 0)
    [⟨"A", "analysis", "NA", true, []⟩] ⟨[], 0, 0⟩
    ⟨⟨[("A", ⟨"A", true, some .analyzed, 0, none⟩)], 0, 0⟩, none, [],
     [(["A"], [])]⟩
    (by decide)

/-- C4 (code bug): in parallel mode with continue-on-error disabled, a failed
step does not abort the run — the pending step C is still scheduled in the
round after A's failure, no exception reaches `execute` (`err = none`, the
result's error list is empty), and the `Step failed` error raised inside the
fire-and-forget completion callback is leaked as an unhandled rejection. -/
theorem parallel_failure_no_abort_and_unhandled_rejection_leak :
    (executeParallelFull ⟨false, 300000, false, true⟩ (fun _ => 0)
      [⟨"A", "bogus", "NA", true, []⟩, ⟨"B", "test", "NB", true, []⟩,
       ⟨"C", "custom", "NC", true, ["B"]⟩]
      ⟨[], 0, 0⟩).map
        (fun pr => (pr.trace.map Prod.fst, pr.err, pr.unhandled)) =
      some ([["A", "B"], ["C"]], none, ["Step failed: NA"]) ∧
    (FlowExecutor.execute ⟨false, 300000, false, true⟩ (fun _ => 0)
      ⟨"w", "W", none,
       [⟨"A", "bogus", "NA", true, []⟩, ⟨"B", "test", "NB", true, []⟩,
        ⟨"C", "custom", "NC", true, ["B"]⟩]⟩ 0).errors = [] := by
  constructor <;> decide

/-- A fold over `dfsStep` starting from an exhausted-fuel accumulator stays
exhausted. -/
theorem foldl_dfsStep_none (f : String → DfsSt → Option (Bool × DfsSt)) :
    ∀ ns : List String, ns.foldl (dfsStep f) none = none := by
  intro ns
  induction ns with
  | nil => rfl
  | cons n rest ih => simpa [dfsStep] using ih

/-- A fold over `dfsStep` short-circuits once a cycle has been found. -/
theorem foldl_dfsStep_true (f : String → DfsSt → Option (Bool × DfsSt))
    (st : DfsSt) :
    ∀ ns : List String, ns.foldl (dfsStep f) (some (true, st)) =
      some (true, st) := by
  intro ns
  induction ns with
  | nil => rfl
  | cons n rest ih => simpa [dfsStep] using ih

/-- The visited set only grows along a fold over `dfsStep`. -/
theorem foldl_dfsStep_visited_mono
    (f : String → DfsSt → Option (Bool × DfsSt))
    (hf : ∀ (n : String) (st : DfsSt) (b : Bool) (st' : DfsSt),
      f n st = some (b, st') → st.visited ⊆ st'.visited) :
    ∀ (ns : List String) (b0 : Bool) (st0 : DfsSt) (b : Bool) (st' : DfsSt),
      ns.foldl (dfsStep f) (some (b0, st0)) = some (b, st') →
      st0.visited ⊆ st'.visited := by
  intro ns
  induction ns with
  | nil =>
      intro b0 st0 b st' h
      simp only [List.foldl_nil] at h
      obtain ⟨rfl, rfl⟩ := Prod.mk.injEq .. ▸ Option.some.inj h
      exact fun x hx => hx
  | cons n rest ih =>
      intro b0 st0 b st' h
      rw [List.foldl_cons] at h
      cases b0 with
      | true =>
          have hstep : dfsStep f (some (true, st0)) n = some (true, st0) := rfl
          rw [hstep] at h
          exact ih _ _ _ _ h
      | false =>
          rcases hd : dfsStep f (some (false, st0)) n with _ | ⟨b1, st1⟩
          · rw [hd, foldl_dfsStep_none] at h
            cases h
          · rw [hd] at h
            have hsub : st0.visited ⊆ st1.visited := by
              simp only [dfsStep] at hd
              by_cases hv : st0.visited.contains n
              · by_cases hr : st0.recStack.contains n
                · simp only [hv, Bool.not_true, Bool.false_eq_true,
                    if_false, hr, if_true] at hd
                  obtain ⟨rfl, rfl⟩ := Prod.mk.injEq .. ▸ Option.some.inj hd
                  exact fun x hx => hx
                · simp only [hv, Bool.not_true, Bool.false_eq_true,
                    if_false, hr, Bool.false_eq_true, if_false] at hd
                  obtain ⟨rfl, rfl⟩ := Prod.mk.injEq .. ▸ Option.some.inj hd
                  exact fun x hx => hx
              · simp only [Bool.not_eq_true] at hv
                simp only [hv, Bool.not_false, if_true] at hd
                exact hf _ _ _ _ hd
            exact hsub.trans (ih _ _ _ _ h)

/-- A DFS visit only grows the visited set, and marks the visited node. -/
theorem dfsVisit_visited_mono (graph : List (String × List String)) :
    ∀ (fuel : Nat) (n : String) (st : DfsSt) (b : Bool) (st' : DfsSt),
      dfsVisit graph fuel n st = some (b, st') →
      st.visited ⊆ st'.visited ∧ n ∈ st'.visited := by
  intro fuel
  induction fuel with
  | zero =>
      intro n st b st' h
      cases h
  | succ fuel ih =>
      intro n st b st' h
      simp only [dfsVisit] at h
      rcases hf : ((mapGet graph n).getD []).foldl
          (dfsStep fun y s => dfsVisit graph fuel y s)
          (some (false, { st with visited := n :: st.visited,
                                  recStack := n :: st.recStack,
                                  path := st.path ++ [n] })) with _ | ⟨b2, st2⟩
      · rw [hf] at h
        cases h
      · rw [hf] at h
        have hmono := foldl_dfsStep_visited_mono _
          (fun y s b' s' hh => (ih y s b' s' hh).1) _ _ _ _ _ hf
        have hn : n ∈ st2.visited := hmono (List.mem_cons_self _ _)
        have hsub : st.visited ⊆ st2.visited :=
          fun x hx => hmono (List.mem_cons_of_mem _ hx)
        cases b2 with
        | true =>
            obtain ⟨rfl, rfl⟩ := Prod.mk.injEq .. ▸ Option.some.inj h
            exact ⟨hsub, hn⟩
        | false =>
            obtain ⟨rfl, rfl⟩ := Prod.mk.injEq .. ▸ Option.some.inj h
            exact ⟨hsub, hn⟩

/-- Growing the visited set can only shrink the measure. -/
theorem dfsMeasure_le_of_subset (U : Finset String) {v v' : List String}
    (h : v ⊆ v') : dfsMeasure U v' ≤ dfsMeasure U v := by
  apply Finset.card_le_card
  intro x hx
  simp only [Finset.mem_filter] at hx ⊢
  exact ⟨hx.1, fun hc => hx.2 (h hc)⟩

/-- The measure is bounded by the size of the universe. -/
theorem dfsMeasure_le_card (U : Finset String) (v : List String) :
    dfsMeasure U v ≤ U.card :=
  Finset.card_filter_le _ _

/-- Visiting a fresh universe element strictly shrinks the measure. -/
theorem dfsMeasure_cons_lt (U : Finset String) (v : List String) (n : String)
    (hnU : n ∈ U) (hnv : n ∉ v) :
    dfsMeasure U (n :: v) < dfsMeasure U v := by
  apply Finset.card_lt_card
  constructor
  · intro x hx
    simp only [Finset.mem_filter, List.mem_cons] at hx ⊢
    exact ⟨hx.1, fun hc => hx.2 (Or.inr hc)⟩
  · intro hcon
    have hn : n ∈ U.filter fun x => x ∉ v :=
      Finset.mem_filter.mpr ⟨hnU, hnv⟩
    have := hcon hn
    simp at this

/-- Fuel sufficiency for the validator's DFS: when the fuel dominates the
number of unvisited universe ids, the visit cannot exhaust it. -/
theorem dfsVisit_isSome (graph : List (String × List String))
    (U : Finset String)
    (hU : ∀ y : String, ∀ x ∈ (mapGet graph y).getD [], x ∈ U) :
    ∀ (fuel : Nat) (n : String) (st : DfsSt), n ∈ U → n ∉ st.visited →
      dfsMeasure U st.visited ≤ fuel → (dfsVisit graph fuel n st).isSome := by
  intro fuel
  induction fuel using Nat.strong_induction_on with
  | _ fuel ihf =>
    intro n st hnU hnv hm
    have hpos : 0 < dfsMeasure U st.visited :=
      Finset.card_pos.mpr ⟨n, Finset.mem_filter.mpr ⟨hnU, hnv⟩⟩
    cases fuel with
    | zero => omega
    | succ f =>
        simp only [dfsVisit]
        have hm1 : dfsMeasure U (n :: st.visited) ≤ f := by
          have := dfsMeasure_cons_lt U st.visited n hnU hnv
          omega
        have hfold : ∀ (ns : List String) (cur : DfsSt),
            (∀ x ∈ ns, x ∈ U) → dfsMeasure U cur.visited ≤ f →
            (ns.foldl (dfsStep fun y s => dfsVisit graph f y s)
              (some (false, cur))).isSome := by
          intro ns
          induction ns with
          | nil =>
              intro cur _ _
              simp
          | cons x rest ihns =>
              intro cur hxU hcur
              rw [List.foldl_cons]
              by_cases hv : x ∈ cur.visited
              · by_cases hr : x ∈ cur.recStack
                · have hstep : dfsStep (fun y s => dfsVisit graph f y s)
                      (some (false, cur)) x =
                      some (true, pushCycleSt cur x) := by
                    simp [dfsStep, hv, hr]
                  rw [hstep, foldl_dfsStep_true]
                  rfl
                · have hstep : dfsStep (fun y s => dfsVisit graph f y s)
                      (some (false, cur)) x = some (false, cur) := by
                    simp [dfsStep, hv, hr]
                  rw [hstep]
                  exact ihns cur
                    (fun y hy => hxU y (List.mem_cons_of_mem _ hy)) hcur
              · have hstep : dfsStep (fun y s => dfsVisit graph f y s)
                    (some (false, cur)) x = dfsVisit graph f x cur := by
                  simp [dfsStep, hv]
                rw [hstep]
                have hxv : x ∉ cur.visited := hv
                have hvis := ihf f (Nat.lt_succ_self f) x cur
                  (hxU x (List.mem_cons_self _ _)) hxv hcur
                obtain ⟨⟨b1, st1⟩, hx1⟩ := Option.isSome_iff_exists.mp hvis
                rw [hx1]
                cases b1 with
                | true =>
                    rw [foldl_dfsStep_true]
                    rfl
                | false =>
                    apply ihns st1
                      (fun y hy => hxU y (List.mem_cons_of_mem _ hy))
                    have hsub := (dfsVisit_visited_mono graph f x cur _ _
                      hx1).1
                    exact le_trans (dfsMeasure_le_of_subset U hsub) hcur
        have hrun := hfold ((mapGet graph n).getD [])
          { st with visited := n :: st.visited, recStack := n :: st.recStack,
                    path := st.path ++ [n] }
          (hU n) hm1
        obtain ⟨⟨b2, st2⟩, h2⟩ := Option.isSome_iff_exists.mp hrun
        rw [h2]
        cases b2 <;> rfl

theorem mapGet_mapSet {α : Type} (m : List (String × α)) (k k' : String)
    (v : α) :
    mapGet (mapSet m k v) k' = if k = k' then some v else mapGet m k' := by
  by_cases h : k = k'
  · subst h
    simp [mapGet_mapSet_self]
  · simp [h, mapGet_mapSet_ne m k k' v h]

/-- Every adjacency list stored in the dependency graph is the dependency
list of one of the steps. -/
theorem mapGet_graphOf (steps : List WorkflowStep) :
    ∀ (n : String) (ds : List String),
      mapGet (graphOf steps) n = some ds →
      ∃ s ∈ steps, ds = s.dependencies := by
  have haux : ∀ (l : List WorkflowStep) (g0 : List (String × List String))
      (n : String) (ds : List String),
      mapGet (l.foldl (fun g s => mapSet g s.id s.dependencies) g0) n =
        some ds →
      mapGet g0 n = some ds ∨ ∃ s ∈ l, ds = s.dependencies := by
    intro l
    induction l with
    | nil =>
        intro g0 n ds h
        exact Or.inl h
    | cons s rest ih =>
        intro g0 n ds h
        rw [List.foldl_cons] at h
        rcases ih _ n ds h with h0 | h1
        · rw [mapGet_mapSet] at h0
          by_cases he : s.id = n
          · rw [if_pos he] at h0
            exact Or.inr ⟨s, List.mem_cons_self _ _,
              (Option.some.inj h0).symm⟩
          · rw [if_neg he] at h0
            exact Or.inl h0
        · obtain ⟨s', hs', hds⟩ := h1
          exact Or.inr ⟨s', List.mem_cons_of_mem _ hs', hds⟩
  intro n ds h
  rcases haux steps [] n ds h with h0 | h1
  · cases h0
  · exact h1

/-- The validator's root loop cannot exhaust the fuel when the fuel dominates
the universe size. -/
theorem detectRootsLoop_isSome (graph : List (String × List String))
    (U : Finset String)
    (hU : ∀ y : String, ∀ x ∈ (mapGet graph y).getD [], x ∈ U)
    (fuel : Nat) (hfuel : U.card < fuel) :
    ∀ (l : List WorkflowStep) (st : DfsSt), (∀ s ∈ l, s.id ∈ U) →
      (detectRootsLoop graph fuel l st).isSome := by
  intro l
  induction l with
  | nil =>
      intro st _
      rfl
  | cons step rest ih =>
      intro st hids
      simp only [detectRootsLoop]
      by_cases hv : step.id ∈ st.visited
      · rw [if_pos (by simpa using hv)]
        exact ih st fun s hs => hids s (List.mem_cons_of_mem _ hs)
      · rw [if_neg (by simpa using hv)]
        have hsome := dfsVisit_isSome graph U hU fuel step.id
          { st with path := [] } (hids step (List.mem_cons_self _ _)) hv
          (le_trans (dfsMeasure_le_card U _) (Nat.le_of_lt hfuel))
        obtain ⟨⟨b, st2⟩, h2⟩ := Option.isSome_iff_exists.mp hsome
        rw [h2]
        exact ih st2 fun s hs => hids s (List.mem_cons_of_mem _ hs)

/-- `detectCircularDependencies` never exhausts its fuel: the DFS terminates
on every finite dependency graph, self-loops included. -/
theorem detectCircularDependenciesO_isSome (steps : List WorkflowStep) :
    (detectCircularDependenciesO steps).isSome := by
  have hU : ∀ y : String,
      ∀ x ∈ (mapGet (graphOf steps) y).getD [], x ∈
        (cycleUniv steps).toFinset := by
    intro y x hx
    rcases hg : mapGet (graphOf steps) y with _ | ds
    · rw [hg] at hx
      simp at hx
    · rw [hg] at hx
      obtain ⟨s, hs, rfl⟩ := mapGet_graphOf steps y ds hg
      simp only [List.mem_toFinset, cycleUniv, List.mem_append]
      exact Or.inr (List.mem_flatMap.mpr ⟨s, hs, hx⟩)
  have hfuel : (cycleUniv steps).toFinset.card < cycleFuel steps :=
    Nat.lt_succ_of_le (List.toFinset_card_le _)
  have hids : ∀ s ∈ steps, s.id ∈ (cycleUniv steps).toFinset := by
    intro s hs
    simp only [List.mem_toFinset, cycleUniv, List.mem_append]
    exact Or.inl (List.mem_map.mpr ⟨s, hs, rfl⟩)
  have h := detectRootsLoop_isSome (graphOf steps)
    (cycleUniv steps).toFinset hU (cycleFuel steps) hfuel steps
    ⟨[], [], [], []⟩ hids
  obtain ⟨st, hst⟩ := Option.isSome_iff_exists.mp h
  unfold detectCircularDependenciesO
  rw [hst]
  rfl

/-- C7: for the cyclic workflow A→B→C→A (each step depending on the
previous), `FlowValidator.validate` reports `valid = false` with a
`CIRCULAR_DEPS` error whose message contains all three step ids; on a
self-loop the detection reports the one-step cycle, and the fuel-indexed DFS
never exhausts its fuel on any finite graph (it terminates). -/
theorem validate_reports_cycle_and_detection_terminates :
    (FlowValidator.validate ⟨"wf", "WF", none,
       [⟨"A", "custom", "SA", true, ["C"]⟩,
        ⟨"B", "custom", "SB", true, ["A"]⟩,
        ⟨"C", "custom", "SC", true, ["B"]⟩]⟩).valid = false ∧
    (⟨"Circular dependencies detected: A -> C -> B", "CIRCULAR_DEPS", none⟩ :
       ValidationError) ∈
      (FlowValidator.validate ⟨"wf", "WF", none,
        [⟨"A", "custom", "SA", true, ["C"]⟩,
         ⟨"B", "custom", "SB", true, ["A"]⟩,
         ⟨"C", "custom", "SC", true, ["B"]⟩]⟩).errors ∧
    ('A' ∈ "Circular dependencies detected: A -> C -> B".data ∧
     'B' ∈ "Circular dependencies detected: A -> C -> B".data ∧
     'C' ∈ "Circular dependencies detected: A -> C -> B".data) ∧
    detectCircularDependencies [⟨"S", "custom", "SS", true, ["S"]⟩] =
      ["S"] ∧
    ∀ steps : List WorkflowStep, (detectCircularDependenciesO steps).isSome :=
  ⟨by decide, by decide, by decide, by decide,
   detectCircularDependenciesO_isSome⟩

/-- C9 counterexample: `addAnalysisStep` does not chain to the preceding
step — an analysis step added after a test step gets an empty dependency
list, not `["step_1"]`. -/
theorem add_analysis_step_does_not_chain_cex :
    addAnalysisStep (addTestStep []) =
      [⟨"step_1", "test", "Run Tests", true, []⟩,
       ⟨"step_2", "analysis", "Code Analysis", true, []⟩] ∧
    ¬ ((addAnalysisStep (addTestStep [])).getLast?.map
        fun s => s.dependencies) = some ["step_1"] := by
  constructor <;> decide

/-- C9 amended: every built-in step-adding call auto-generates the id
`step_<n+1>`; `addAutoFixStep`, `addTestStep` and `addDeployStep` set the new
step's dependency list to exactly the immediately preceding step's id (empty
when the step is the first), while `addAnalysisStep` always sets an empty
dependency list, even when a step precedes it. -/
theorem builder_chaining_amended (steps : List WorkflowStep)
    (s : WorkflowStep) (hlast : steps.getLast? = some s) (hid : s.id ≠ "") :
    (addAutoFixStep steps).getLast? = some
      ⟨"step_" ++ toString (steps.length + 1), "fix", "Auto Fix", true,
       [s.id]⟩ ∧
    (addTestStep steps).getLast? = some
      ⟨"step_" ++ toString (steps.length + 1), "test", "Run Tests", true,
       [s.id]⟩ ∧
    (addDeployStep steps).getLast? = some
      ⟨"step_" ++ toString (steps.length + 1), "deploy", "Deploy", true,
       [s.id]⟩ ∧
    (addAnalysisStep steps).getLast? = some
      ⟨"step_" ++ toString (steps.length + 1), "analysis", "Code Analysis",
       true, []⟩ ∧
    addAutoFixStep [] = [⟨"step_1", "fix", "Auto Fix", true, []⟩] ∧
    addTestStep [] = [⟨"step_1", "test", "Run Tests", true, []⟩] ∧
    addDeployStep [] = [⟨"step_1", "deploy", "Deploy", true, []⟩] := by
  have hchain : chainDeps steps = [s.id] := by
    simp [chainDeps, prevStepId, hlast, hid]
  refine ⟨?_, ?_, ?_, ?_, by decide, by decide, by decide⟩ <;>
    simp [addAutoFixStep, addTestStep, addDeployStep, addAnalysisStep,
      hchain, genStepId, List.getLast?_concat]

/-- Closed instance of `builder_chaining_amended`: a fix step added after a
test step depends on `step_1`. -/
theorem builder_chaining_amended_witness :
    (addAutoFixStep (addTestStep [])).getLast? = some
      ⟨"step_2", "fix", "Auto Fix", true, ["step_1"]⟩ :=
  (builder_chaining_amended (addTestStep [])
    ⟨"step_1", "test", "Run Tests", true, []⟩ (by decide) (by decide)).1

theorem mapSet_fresh_append {α : Type} (m : List (String × α)) (k : String)
    (v : α) (h : k ∉ mapKeys m) : mapSet m k v = m ++ [(k, v)] := by
  induction m with
  | nil => rfl
  | cons p rest ih =>
      obtain ⟨k₀, v₀⟩ := p
      simp only [mapKeys, List.map_cons, List.mem_cons] at h
      push_neg at h
      simp only [mapSet, if_neg (Ne.symm h.1), List.cons_append,
        List.cons.injEq, true_and]
      exact ih (by simpa [mapKeys] using h.2)

theorem mapGet_append_left {α : Type} (m1 m2 : List (String × α))
    (k : String) (v : α) (h : mapGet m1 k = some v) :
    mapGet (m1 ++ m2) k = some v := by
  induction m1 with
  | nil => cases h
  | cons p rest ih =>
      obtain ⟨k₀, v₀⟩ := p
      simp only [mapGet] at h ⊢
      by_cases h0 : k₀ = k
      · rwa [if_pos h0] at h ⊢
      · rw [if_neg h0] at h ⊢
        exact ih h

/-- `firstUnmetDep` finds nothing exactly when every dependency is recorded
successful. -/
theorem firstUnmetDep_eq_none_iff (deps : List String)
    (m : List (String × StepResult)) :
    firstUnmetDep deps m = none ↔
      ∀ d ∈ deps, ∃ r, mapGet m d = some r ∧ r.success = true := by
  unfold firstUnmetDep
  rw [List.find?_eq_none]
  constructor
  · intro h d hd
    have := h d hd
    rcases hm : mapGet m d with _ | r
    · rw [hm] at this
      simp at this
    · rw [hm] at this
      simp only [Bool.not_eq_true'] at this
      exact ⟨r, rfl, by simpa using this⟩
  · intro h d hd
    obtain ⟨r, hr, hs⟩ := h d hd
    rw [hr]
    simp [hs]

/-- Shape of one run of the built workflow's execution loop over fresh step
ids: the result map extends the accumulator with one entry per step, and the
error list grows by exactly one message per failed entry. -/
theorem builtExecLoop_spec (dur : WorkflowStep → Nat) :
    ∀ (l : List WorkflowStep) (m : List (String × StepResult))
      (errs : List String) (now : Nat),
      (∀ s ∈ l, s.id ∉ mapKeys m) → (l.map fun s => s.id).Nodup →
      ∃ (tail : List (String × StepResult)) (tailErrs : List String),
        (builtExecLoop dur l m errs now).1 = m ++ tail ∧
        mapKeys tail = l.map (fun s => s.id) ∧
        (builtExecLoop dur l m errs now).2.1 = errs ++ tailErrs ∧
        tailErrs.length =
          (tail.filter fun p => !p.2.success).length := by
  intro l
  induction l with
  | nil =>
      intro m errs now _ _
      exact ⟨[], [], by simp [builtExecLoop], by simp [mapKeys],
        by simp [builtExecLoop], by simp⟩
  | cons s rest ih =>
      intro m errs now hfresh hnodup
      have hsid : s.id ∉ mapKeys m := hfresh s (List.mem_cons_self _ _)
      simp only [List.map_cons, List.nodup_cons] at hnodup
      rcases hd : firstUnmetDep s.dependencies m with _ | dep
      all_goals
        simp only [builtExecLoop, hd]
      · -- dependencies met: success entry
        set r : StepResult :=
          { stepId := s.id, success := true, output := some .placeholderOk,
            duration := dur s, error := none } with hr
        have hset := mapSet_fresh_append m s.id r hsid
        have hfresh' : ∀ s' ∈ rest, s'.id ∉ mapKeys (mapSet m s.id r) := by
          intro s' hs'
          rw [hset]
          simp only [mapKeys, List.map_append, List.mem_append]
          rintro (h1 | h1)
          · exact hfresh s' (List.mem_cons_of_mem _ hs') h1
          · simp only [mapKeys, List.map_cons, List.map_nil,
              List.mem_singleton] at h1
            exact hnodup.1 (h1 ▸ List.mem_map.mpr ⟨s', hs', rfl⟩)
        obtain ⟨tail, tailErrs, h1, h2, h3, h4⟩ :=
          ih (mapSet m s.id r) errs (now + dur s) hfresh' hnodup.2
        refine ⟨(s.id, r) :: tail, tailErrs, ?_, ?_, h3, ?_⟩
        · rw [h1, hset]
          simp
        · simp [mapKeys] at h2 ⊢
          exact h2
        · simp only [List.filter_cons]
          rw [h4]
          simp [hr]
      · -- unmet dependency: failed entry and error message
        set r : StepResult :=
          { stepId := s.id, success := false, output := none, duration := 0,
            error := some ("Dependency " ++ dep ++
              " failed or not completed") } with hr
        have hset := mapSet_fresh_append m s.id r hsid
        have hfresh' : ∀ s' ∈ rest, s'.id ∉ mapKeys (mapSet m s.id r) := by
          intro s' hs'
          rw [hset]
          simp only [mapKeys, List.map_append, List.mem_append]
          rintro (h1 | h1)
          · exact hfresh s' (List.mem_cons_of_mem _ hs') h1
          · simp only [mapKeys, List.map_cons, List.map_nil,
              List.mem_singleton] at h1
            exact hnodup.1 (h1 ▸ List.mem_map.mpr ⟨s', hs', rfl⟩)
        obtain ⟨tail, tailErrs, h1, h2, h3, h4⟩ :=
          ih (mapSet m s.id r)
            (errs ++ ["Dependency " ++ dep ++ " failed or not completed"])
            now hfresh' hnodup.2
        refine ⟨(s.id, r) :: tail,
          ("Dependency " ++ dep ++ " failed or not completed") :: tailErrs,
          ?_, ?_, ?_, ?_⟩
        · rw [h1, hset]
          simp
        · simp [mapKeys] at h2 ⊢
          exact h2
        · rw [h3]
          simp
        · simp only [List.filter_cons]
          rw [List.length_cons, h4]
          simp [hr]

theorem fresh_after_set (m : List (String × StepResult))
    (s0 : WorkflowStep) (r : StepResult) (rest : List WorkflowStep)
    (hfresh : ∀ s ∈ s0 :: rest, s.id ∉ mapKeys m)
    (hnotin : s0.id ∉ rest.map fun s => s.id) :
    ∀ s' ∈ rest, s'.id ∉ mapKeys (mapSet m s0.id r) := by
  intro s' hs'
  rw [mapSet_fresh_append m s0.id r (hfresh s0 (List.mem_cons_self _ _))]
  simp only [mapKeys, List.map_append, List.mem_append]
  rintro (h1 | h1)
  · exact hfresh s' (List.mem_cons_of_mem _ hs') h1
  · simp only [List.map_cons, List.map_nil, List.mem_singleton] at h1
    exact hnotin (h1 ▸ List.mem_map.mpr ⟨s', hs', rfl⟩)

/-- Per-step property of the built workflow's loop: every listed step ends up
with exactly one recorded `StepResult`, and when the final map shows one of
its dependencies missing or failed, that record is a failure. -/
theorem builtExecLoop_per_step (dur : WorkflowStep → Nat) :
    ∀ (l : List WorkflowStep) (m : List (String × StepResult))
      (errs : List String) (now : Nat),
      (∀ s ∈ l, s.id ∉ mapKeys m) → (l.map fun s => s.id).Nodup →
      ∀ s ∈ l, ∃ r,
        mapGet (builtExecLoop dur l m errs now).1 s.id = some r ∧
        ((firstUnmetDep s.dependencies
            (builtExecLoop dur l m errs now).1).isSome →
          r.success = false) := by
  intro l
  induction l with
  | nil =>
      intro m errs now _ _ s hs
      cases hs
  | cons s0 rest ih =>
      intro m errs now hfresh hnodup s hs
      have hsid : s0.id ∉ mapKeys m := hfresh s0 (List.mem_cons_self _ _)
      simp only [List.map_cons, List.nodup_cons] at hnodup
      rcases List.mem_cons.mp hs with rfl | hs'
      · -- the head step itself
        rcases hd : firstUnmetDep s.dependencies m with _ | dep
        · -- dependencies met at its turn: successful record
          set r : StepResult :=
            { stepId := s.id, success := true,
              output := some .placeholderOk, duration := dur s,
              error := none } with hr
          simp only [builtExecLoop, hd]
          obtain ⟨tail, tailErrs, h1, h2, h3, h4⟩ :=
            builtExecLoop_spec dur rest (mapSet m s.id r) errs (now + dur s)
              (fresh_after_set m s r rest hfresh hnodup.1) hnodup.2
          refine ⟨r, ?_, ?_⟩
          · rw [h1]
            exact mapGet_append_left _ _ _ _ (mapGet_mapSet_self m s.id r)
          · intro hS
            exfalso
            have hnone : firstUnmetDep s.dependencies
                (builtExecLoop dur rest (mapSet m s.id r) errs
                  (now + dur s)).1 = none := by
              rw [firstUnmetDep_eq_none_iff]
              intro d hdm
              obtain ⟨rd, hrd, hrds⟩ :=
                (firstUnmetDep_eq_none_iff s.dependencies m).mp hd d hdm
              by_cases hde : s.id = d
              · refine ⟨r, ?_, rfl⟩
                rw [h1]
                exact mapGet_append_left _ _ _ _
                  (hde ▸ mapGet_mapSet_self m s.id r)
              · refine ⟨rd, ?_, hrds⟩
                rw [h1]
                refine mapGet_append_left _ _ _ _ ?_
                rw [mapGet_mapSet_ne m s.id d r hde]
                exact hrd
            rw [hnone] at hS
            cases hS
        · -- unmet dependency at its turn: failed record
          set r : StepResult :=
            { stepId := s.id, success := false, output := none,
              duration := 0,
              error := some ("Dependency " ++ dep ++
                " failed or not completed") } with hr
          simp only [builtExecLoop, hd]
          obtain ⟨tail, tailErrs, h1, h2, h3, h4⟩ :=
            builtExecLoop_spec dur rest (mapSet m s.id r)
              (errs ++ ["Dependency " ++ dep ++ " failed or not completed"])
              now (fresh_after_set m s r rest hfresh hnodup.1) hnodup.2
          refine ⟨r, ?_, fun _ => rfl⟩
          rw [h1]
          exact mapGet_append_left _ _ _ _ (mapGet_mapSet_self m s.id r)
      · -- a later step: defer to the induction hypothesis
        rcases hd : firstUnmetDep s0.dependencies m with _ | dep
        · simp only [builtExecLoop, hd]
          exact ih _ _ _
            (fresh_after_set m s0 _ rest hfresh hnodup.1) hnodup.2 s hs'
        · simp only [builtExecLoop, hd]
          exact ih _ _ _
            (fresh_after_set m s0 _ rest hfresh hnodup.1) hnodup.2 s hs'

/-- C10: for step lists with unique ids (as produced by
`WorkflowBuilder.build`), the built workflow's own `execute` attempts every
step and records exactly one `StepResult` per step (the result map's keys are
exactly the step ids, in order — so the run never stops early and no step is
absent), the error list holds exactly one message per failed record, and a
step whose dependency is missing or failed in the final map has a failed
record. -/
theorem built_workflow_attempts_every_step
    (dur : WorkflowStep → Nat) (steps : List WorkflowStep) (c : Nat)
    (hnodup : (steps.map fun s => s.id).Nodup) :
    mapKeys (builtExecute dur steps c).stepResults =
      steps.map (fun s => s.id) ∧
    (builtExecute dur steps c).errors.length =
      ((builtExecute dur steps c).stepResults.filter
        fun p => !p.2.success).length ∧
    ∀ s ∈ steps, ∃ r,
      mapGet (builtExecute dur steps c).stepResults s.id = some r ∧
      ((firstUnmetDep s.dependencies
          (builtExecute dur steps c).stepResults).isSome →
        r.success = false) := by
  have hfresh : ∀ s ∈ steps,
      s.id ∉ mapKeys ([] : List (String × StepResult)) := by
    simp [mapKeys]
  obtain ⟨tail, tailErrs, h1, h2, h3, h4⟩ :=
    builtExecLoop_spec dur steps [] [] c hfresh hnodup
  have hres : (builtExecute dur steps c).stepResults =
      (builtExecLoop dur steps [] [] c).1 := rfl
  have herr : (builtExecute dur steps c).errors =
      (builtExecLoop dur steps [] [] c).2.1 := rfl
  refine ⟨?_, ?_, ?_⟩
  · rw [hres, h1]
    simpa using h2
  · rw [herr, hres, h3, h1]
    simpa using h4
  · intro s hs
    rw [hres]
    exact builtExecLoop_per_step dur steps [] [] c hfresh hnodup s hs

/-- Closed instance of `built_workflow_attempts_every_step`: both the
successful first step and the dependency-failed second step are recorded. -/
theorem built_workflow_attempts_every_step_witness :
    mapKeys (builtExecute (fun _ => 1)
      [⟨"step_1", "test", "Run Tests", true, []⟩,
       ⟨"step_2", "custom", "lint", true, ["nope"]⟩] 0).stepResults =
      ["step_1", "step_2"] :=
  (built_workflow_attempts_every_step (fun _ => 1)
    [⟨"step_1", "test", "Run Tests", true, []⟩,
     ⟨"step_2", "custom", "lint", true, ["nope"]⟩] 0 (by decide)).1

/-- With unique step ids, building the dependency graph via `Map.set` yields
one entry per step, in order. -/
theorem graphOf_eq_map (steps : List WorkflowStep)
    (hnodup : (steps.map fun s => s.id).Nodup) :
    graphOf steps = steps.map fun s => (s.id, s.dependencies) := by
  have haux : ∀ (l : List WorkflowStep) (g0 : List (String × List String)),
      (∀ s ∈ l, s.id ∉ mapKeys g0) → (l.map fun s => s.id).Nodup →
      l.foldl (fun g s => mapSet g s.id s.dependencies) g0 =
        g0 ++ l.map fun s => (s.id, s.dependencies) := by
    intro l
    induction l with
    | nil =>
        intro g0 _ _
        simp
    | cons s rest ih =>
        intro g0 hfresh hnodup
        simp only [List.map_cons, List.nodup_cons] at hnodup
        rw [List.foldl_cons,
          mapSet_fresh_append g0 s.id s.dependencies
            (hfresh s (List.mem_cons_self _ _))]
        have hfresh' : ∀ s' ∈ rest,
            s'.id ∉ mapKeys (g0 ++ [(s.id, s.dependencies)]) := by
          intro s' hs'
          simp only [mapKeys, List.map_append, List.mem_append,
            List.map_cons, List.map_nil, List.mem_singleton]
          rintro (h1 | h1)
          · exact hfresh s' (List.mem_cons_of_mem _ hs') h1
          · exact hnodup.1 (h1 ▸ List.mem_map.mpr ⟨s', hs', rfl⟩)
        rw [ih _ hfresh' hnodup.2]
        simp
  simpa using haux steps [] (by simp [mapKeys]) hnodup

/-- On a one-entry-per-step association list, `Map.get` coincides with the
builder's `steps.find(...)` adjacency. -/
theorem mapGet_map_eq_find (steps : List WorkflowStep) (x : String) :
    mapGet (steps.map fun s => (s.id, s.dependencies)) x =
      (steps.find? fun s => s.id = x).map fun s => s.dependencies := by
  induction steps with
  | nil => rfl
  | cons s rest ih =>
      simp only [List.map_cons, mapGet, List.find?]
      by_cases h : s.id = x
      · simp [h]
      · simp only [h, if_false]
        rw [ih]
        simp [h]

/-- The two DFS implementations read the same adjacency when step ids are
unique. -/
theorem builder_adjacency_eq (steps : List WorkflowStep)
    (hnodup : (steps.map fun s => s.id).Nodup) (x : String) :
    (match steps.find? fun s => s.id = x with
     | some s => s.dependencies
     | none => []) = (mapGet (graphOf steps) x).getD [] := by
  rw [graphOf_eq_map steps hnodup, mapGet_map_eq_find]
  rcases hf : steps.find? fun s => s.id = x with _ | s <;> simp [hf]

/-- The builder's `hasCycle` DFS is the projection of the validator's DFS
over any graph with the same adjacency as the builder's `steps.find(...)`
lookup: same verdict, same visited set and recursion stack. -/
theorem builderHasCycle_eq_proj (steps : List WorkflowStep)
    (g : List (String × List String))
    (hadjAll : ∀ x, (match steps.find? fun s => s.id = x with
      | some s => s.dependencies
      | none => []) = (mapGet g x).getD []) :
    ∀ (fuel : Nat) (n : String) (st : DfsSt),
      builderHasCycle steps fuel n (bproj st) =
        (dfsVisit g fuel n st).map fun p => (p.1, bproj p.2) := by
  intro fuel
  induction fuel with
  | zero =>
      intro n st
      rfl
  | succ fuel ih =>
      intro n st
      have hadj := hadjAll n
      simp only [builderHasCycle, dfsVisit, hadj]
      have hfold : ∀ (ns : List String) (acc : Option (Bool × DfsSt)),
          ns.foldl (builderDfsStep fun y s => builderHasCycle steps fuel y s)
            (acc.map fun p => (p.1, bproj p.2)) =
          (ns.foldl (dfsStep fun y s => dfsVisit g fuel y s)
            acc).map fun p => (p.1, bproj p.2) := by
        intro ns
        induction ns with
        | nil =>
            intro acc
            rfl
        | cons x rest ihns =>
            intro acc
            rw [List.foldl_cons, List.foldl_cons]
            have hstep :
                builderDfsStep (fun y s => builderHasCycle steps fuel y s)
                  (acc.map fun p => (p.1, bproj p.2)) x =
                (dfsStep (fun y s => dfsVisit g fuel y s)
                  acc x).map fun p => (p.1, bproj p.2) := by
              rcases acc with _ | ⟨b0, st0⟩
              · rfl
              · cases b0 with
                | true => rfl
                | false =>
                    show builderDfsStep _ (some (false, bproj st0)) x = _
                    simp only [builderDfsStep, dfsStep]
                    cases hv : st0.visited.contains x with
                    | false =>
                        simp only [bproj, hv, Bool.not_false, if_true]
                        exact ih x st0
                    | true =>
                        have hv' : x ∈ st0.visited := by simpa using hv
                        cases hr : st0.recStack.contains x with
                        | true =>
                            have hr' : x ∈ st0.recStack := by simpa using hr
                            simp [bproj, hv, hr, hv', hr', pushCycleSt]
                        | false =>
                            have hr' : x ∉ st0.recStack := by simpa using hr
                            simp [bproj, hv, hr, hv', hr']
            rw [hstep, ihns]
      have huse := hfold ((mapGet g n).getD [])
        (some (false, { st with visited := n :: st.visited,
                                recStack := n :: st.recStack,
                                path := st.path ++ [n] }))
      simp only [Option.map_some] at huse
      rw [show (bproj st).visited = st.visited from rfl,
        show (bproj st).recStack = st.recStack from rfl] at *
      rw [show ({ visited := n :: st.visited,
                  recStack := n :: st.recStack } : BuilderDfsSt) =
            bproj { st with visited := n :: st.visited,
                            recStack := n :: st.recStack,
                            path := st.path ++ [n] } from rfl]
      rw [show (some (false,
            bproj { st with visited := n :: st.visited,
                            recStack := n :: st.recStack,
                            path := st.path ++ [n] }) :
              Option (Bool × BuilderDfsSt)) =
            (some (false, { st with visited := n :: st.visited,
                                    recStack := n :: st.recStack,
                                    path := st.path ++ [n] }) :
              Option (Bool × DfsSt)).map
              (fun p => (p.1, bproj p.2)) from rfl]
      rw [hfold]
      rcases hfd : ((mapGet g n).getD []).foldl
          (dfsStep fun y s => dfsVisit g fuel y s)
          (some (false, { st with visited := n :: st.visited,
                                  recStack := n :: st.recStack,
                                  path := st.path ++ [n] })) with _ | ⟨b2, st2⟩
      · rfl
      · cases b2 with
        | true => rfl
        | false => rfl

/-- Cycle bookkeeping of the validator's DFS: a visit extends the cycle list;
it extends it by nothing when it reports no cycle and by at least one entry
when it reports one. -/
theorem dfsVisit_cycles_spec (graph : List (String × List String)) :
    ∀ (fuel : Nat) (n : String) (st : DfsSt) (b : Bool) (st' : DfsSt),
      dfsVisit graph fuel n st = some (b, st') →
      ∃ ext, st'.cycles = st.cycles ++ ext ∧
        (b = false → ext = []) ∧ (b = true → ext ≠ []) := by
  intro fuel
  induction fuel with
  | zero =>
      intro n st b st' h
      cases h
  | succ fuel ih =>
      intro n st b st' h
      simp only [dfsVisit] at h
      have hfold : ∀ (ns : List String) (st0 : DfsSt) (b1 : Bool)
          (st1 : DfsSt),
          ns.foldl (dfsStep fun y s => dfsVisit graph fuel y s)
            (some (false, st0)) = some (b1, st1) →
          ∃ ext, st1.cycles = st0.cycles ++ ext ∧
            (b1 = false → ext = []) ∧ (b1 = true → ext ≠ []) := by
        intro ns
        induction ns with
        | nil =>
            intro st0 b1 st1 h0
            simp only [List.foldl_nil] at h0
            obtain ⟨rfl, rfl⟩ := Prod.mk.injEq .. ▸ Option.some.inj h0
            exact ⟨[], by simp, fun _ => rfl, fun h' => nomatch h'⟩
        | cons x rest ihns =>
            intro st0 b1 st1 h0
            rw [List.foldl_cons] at h0
            by_cases hv : x ∈ st0.visited
            · by_cases hr : x ∈ st0.recStack
              · have hstep : dfsStep (fun y s => dfsVisit graph fuel y s)
                    (some (false, st0)) x =
                    some (true, pushCycleSt st0 x) := by
                  simp [dfsStep, hv, hr]
                rw [hstep, foldl_dfsStep_true] at h0
                obtain ⟨rfl, rfl⟩ := Prod.mk.injEq .. ▸ Option.some.inj h0
                refine ⟨[String.intercalate " -> "
                    (pathSliceFrom st0.path x)],
                  by simp [pushCycleSt], by simp, by simp⟩
              · have hstep : dfsStep (fun y s => dfsVisit graph fuel y s)
                    (some (false, st0)) x = some (false, st0) := by
                  simp [dfsStep, hv, hr]
                rw [hstep] at h0
                exact ihns st0 b1 st1 h0
            · have hstep : dfsStep (fun y s => dfsVisit graph fuel y s)
                  (some (false, st0)) x = dfsVisit graph fuel x st0 := by
                simp [dfsStep, hv]
              rw [hstep] at h0
              rcases hx : dfsVisit graph fuel x st0 with _ | ⟨bx, stx⟩
              · rw [hx, foldl_dfsStep_none] at h0
                cases h0
              · rw [hx] at h0
                obtain ⟨ext1, he1, hf1, ht1⟩ := ih x st0 bx stx hx
                cases bx with
                | false =>
                    have hceq : stx.cycles = st0.cycles := by
                      rw [he1, hf1 rfl, List.append_nil]
                    obtain ⟨ext2, he2, hf2, ht2⟩ := ihns stx b1 st1 h0
                    exact ⟨ext2, by rw [he2, hceq], hf2, ht2⟩
                | true =>
                    rw [foldl_dfsStep_true] at h0
                    obtain ⟨rfl, rfl⟩ := Prod.mk.injEq .. ▸ Option.some.inj h0
                    exact ⟨ext1, he1, by simp, fun _ => ht1 rfl⟩
      rcases hfd : ((mapGet graph n).getD []).foldl
          (dfsStep fun y s => dfsVisit graph fuel y s)
          (some (false, { st with visited := n :: st.visited,
                                  recStack := n :: st.recStack,
                                  path := st.path ++ [n] })) with _ | ⟨b2, st2⟩
      · rw [hfd] at h
        cases h
      · rw [hfd] at h
        obtain ⟨ext, he, hf, ht⟩ := hfold _ _ _ _ hfd
        cases b2 with
        | true =>
            obtain ⟨rfl, rfl⟩ := Prod.mk.injEq .. ▸ Option.some.inj h
            exact ⟨ext, he, hf, ht⟩
        | false =>
            obtain ⟨rfl, rfl⟩ := Prod.mk.injEq .. ▸ Option.some.inj h
            exact ⟨ext, he, hf, ht⟩

/-- The validator's root loop only ever extends the cycle list. -/
theorem detectRootsLoop_cycles_mono (graph : List (String × List String))
    (fuel : Nat) :
    ∀ (l : List WorkflowStep) (st st' : DfsSt),
      detectRootsLoop graph fuel l st = some st' →
      ∃ ext, st'.cycles = st.cycles ++ ext := by
  intro l
  induction l with
  | nil =>
      intro st st' h
      obtain rfl : st = st' := Option.some.inj h
      exact ⟨[], by simp⟩
  | cons step rest ih =>
      intro st st' h
      simp only [detectRootsLoop] at h
      by_cases hv : step.id ∈ st.visited
      · rw [if_pos (by simpa using hv)] at h
        exact ih st st' h
      · rw [if_neg (by simpa using hv)] at h
        rcases hx : dfsVisit graph fuel step.id { st with path := [] }
          with _ | ⟨b, st2⟩
        · rw [hx] at h
          cases h
        · rw [hx] at h
          obtain ⟨ext1, he1, _, _⟩ :=
            dfsVisit_cycles_spec graph fuel step.id _ b st2 hx
          obtain ⟨ext2, he2⟩ := ih st2 st' h
          exact ⟨ext1 ++ ext2, by rw [he2, he1]; simp⟩

/-- The builder's root loop (which breaks at the first cycle) agrees with the
validator's root loop on cycle existence: it reports `true` exactly when the
validator's run extends the cycle list. -/
theorem builderRootsLoop_rel (steps : List WorkflowStep)
    (hnodup : (steps.map fun s => s.id).Nodup) (fuel : Nat) :
    ∀ (l : List WorkflowStep) (st st' : DfsSt),
      detectRootsLoop (graphOf steps) fuel l st = some st' →
      ∃ found : Bool,
        builderRootsLoop steps fuel l (bproj st) = some found ∧
        (found = true ↔ st'.cycles ≠ st.cycles) := by
  intro l
  induction l with
  | nil =>
      intro st st' h
      obtain rfl : st = st' := Option.some.inj h
      exact ⟨false, rfl, by simp⟩
  | cons step rest ih =>
      intro st st' h
      simp only [detectRootsLoop] at h
      simp only [builderRootsLoop]
      by_cases hv : step.id ∈ st.visited
      · rw [if_pos (by simpa using hv)] at h
        rw [if_pos (show (bproj st).visited.contains step.id = true by
          simpa [bproj] using hv)]
        exact ih st st' h
      · rw [if_neg (by simpa using hv)] at h
        rw [if_neg (show ¬ (bproj st).visited.contains step.id = true by
          simpa [bproj] using hv)]
        rcases hx : dfsVisit (graphOf steps) fuel step.id
            { st with path := [] } with _ | ⟨b, st2⟩
        · rw [hx] at h
          cases h
        · rw [hx] at h
          have hb : builderHasCycle steps fuel step.id (bproj st) =
              some (b, bproj st2) := by
            have hp := builderHasCycle_eq_proj steps (graphOf steps)
              (fun x => builder_adjacency_eq steps hnodup x) fuel step.id
              { st with path := [] }
            rw [hx] at hp
            simpa using hp
          rw [hb]
          cases b with
          | true =>
              refine ⟨true, rfl, ?_⟩
              simp only [true_iff]
              obtain ⟨ext1, he1, _, ht1⟩ :=
                dfsVisit_cycles_spec (graphOf steps) fuel step.id _ true
                  st2 hx
              obtain ⟨ext2, he2⟩ := detectRootsLoop_cycles_mono
                (graphOf steps) fuel rest st2 st' h
              have hne : ext1 ≠ [] := ht1 rfl
              intro hEq
              have hlen := congrArg List.length hEq
              rw [he2, he1] at hlen
              simp only [List.length_append] at hlen
              have : ext1.length = 0 := by omega
              exact hne (List.eq_nil_of_length_eq_zero this)
          | false =>
              obtain ⟨ext1, he1, hf1, _⟩ :=
                dfsVisit_cycles_spec (graphOf steps) fuel step.id _ false
                  st2 hx
              have hceq : st2.cycles = st.cycles := by
                rw [he1, hf1 rfl, List.append_nil]
              obtain ⟨found, hbf, hiff⟩ := ih st2 st' h
              exact ⟨found, hbf, by rw [hiff, hceq]⟩

theorem flatMap_eq_nil_of_forall {α β : Type} (l : List α) (f : α → List β)
    (h : ∀ x ∈ l, f x = []) : l.flatMap f = [] := by
  induction l with
  | nil => rfl
  | cons x rest ih =>
      simp only [List.flatMap_cons, h x (List.mem_cons_self _ _),
        List.nil_append]
      exact ih fun y hy => h y (List.mem_cons_of_mem _ hy)

theorem builder_workflow_id_ne_empty (ts : Nat) :
    ("workflow_" ++ toString ts) ≠ "" := by
  intro h
  have h2 := congrArg String.data h
  rw [String.data_append] at h2
  have h3 := congrArg List.length h2
  simp at h3

/-- C8 counterexample: a workflow assembled by the builder from a single
custom step with a dangling dependency is accepted by
`WorkflowBuilder.validate` (which only checks emptiness and cycles) but
rejected by `FlowValidator.validate` (which also rejects dangling
dependencies), so the two pre-flight checks do not agree in general. -/
theorem builder_validate_disagrees_cex :
    (WorkflowBuilder.validate (addCustomStep [] "lint" ["nope"])).1 = true ∧
    (FlowValidator.validate (WorkflowBuilder.build 0 "Unnamed Workflow" none
      (addCustomStep [] "lint" ["nope"]))).valid = false := by
  constructor <;> decide

/-- C8 amended: the builder's pre-flight `validate()` agrees with
`FlowValidator.validate` on the built workflow for exactly the checks both
perform — provided the workflow name is not blank, every step has a nonempty
id, a non-blank name and a nonempty type, step ids are unique, and every
dependency references an existing step.  (The counterexample shows agreement
fails in general: `FlowValidator` additionally rejects dangling
dependencies and blank names, which the builder's check never inspects.) -/
theorem builder_validate_agrees_amended
    (ts : Nat) (name : String) (descr : Option String)
    (steps : List WorkflowStep)
    (hname : isBlank name = false)
    (hnodup : (steps.map fun s => s.id).Nodup)
    (hfields : ∀ s ∈ steps, s.id ≠ "" ∧ isBlank s.name = false ∧ s.type ≠ "")
    (hdeps : ∀ s ∈ steps, ∀ d ∈ s.dependencies, ∃ s' ∈ steps, s'.id = d) :
    (WorkflowBuilder.validate steps).1 =
      (FlowValidator.validate
        (WorkflowBuilder.build ts name descr steps)).valid := by
  have hstepErrs : ∀ s ∈ steps,
      (FlowValidator.validateStep s steps).errors = [] := by
    intro s hs
    obtain ⟨h1, h2, h3⟩ := hfields s hs
    have hfilter : (s.dependencies.filter fun depId =>
        !steps.any fun s' => s'.id = depId) = [] := by
      apply List.filter_eq_nil_iff.mpr
      intro d hd
      obtain ⟨s', hs', he⟩ := hdeps s hs d hd
      simp only [Bool.not_eq_true', Bool.not_eq_false]
      exact List.any_eq_true.mpr ⟨s', hs', by simp [he]⟩
    simp only [FlowValidator.validateStep]
    rw [if_neg h1, if_neg (by simp [h2]), if_neg h3, hfilter]
    simp
  have hsome := detectCircularDependenciesO_isSome steps
  unfold detectCircularDependenciesO at hsome
  rcases hroot : detectRootsLoop (graphOf steps) (cycleFuel steps) steps
      ⟨[], [], [], []⟩ with _ | stF
  · rw [hroot] at hsome
    cases hsome
  · have hdet : detectCircularDependencies steps = stF.cycles := by
      unfold detectCircularDependencies detectCircularDependenciesO
      rw [hroot]
      rfl
    obtain ⟨found, hbf, hiff⟩ := builderRootsLoop_rel steps hnodup
      (cycleFuel steps) steps ⟨[], [], [], []⟩ stF hroot
    have hbf' : builderRootsLoop steps (cycleFuel steps) steps ⟨[], []⟩ =
        some found := hbf
    have hbval : (WorkflowBuilder.validate steps).1 =
        (if found then
          (if steps.isEmpty then ["Workflow must have at least one step"]
           else []) ++ ["Workflow contains circular dependencies"]
         else
          (if steps.isEmpty then ["Workflow must have at least one step"]
           else [])).isEmpty := by
      unfold WorkflowBuilder.validate WorkflowBuilder.validateO
      rw [hbf']
      rfl
    have hvval : (FlowValidator.validate
        (WorkflowBuilder.build ts name descr steps)).valid =
        (!steps.isEmpty && stF.cycles.isEmpty) := by
      simp only [FlowValidator.validate, WorkflowBuilder.build]
      rw [if_neg (builder_workflow_id_ne_empty ts),
        if_neg (show ¬ isBlank name = true by simp [hname]),
        show (steps.flatMap fun s =>
            (FlowValidator.validateStep s steps).errors) = [] from
          flatMap_eq_nil_of_forall _ _ hstepErrs,
        hdet]
      by_cases hE : steps.isEmpty = true <;>
        by_cases hC : stF.cycles.isEmpty = true <;>
          simp [hE, hC]
    have hCEtrue : found = true → stF.cycles.isEmpty = false := fun hf =>
      Bool.eq_false_iff.mpr fun h => (hiff.mp hf) (List.isEmpty_iff.mp h)
    have hCEfalse : found = false → stF.cycles.isEmpty = true := by
      intro hf
      have hnil : stF.cycles = [] := by
        by_contra hne
        exact absurd (hiff.mpr hne) (by simp [hf])
      exact List.isEmpty_iff.mpr hnil
    rw [hbval, hvval]
    by_cases hFc : found = true
    · simp only [hFc, if_true, hCEtrue hFc]
      by_cases hE : steps.isEmpty = true <;> simp [hE]
    · have hFc' : found = false := by simpa using hFc
      simp only [hFc', Bool.false_eq_true, if_false, hCEfalse hFc']
      by_cases hE : steps.isEmpty = true <;> simp [hE]

/-- Closed instance of `builder_validate_agrees_amended` at a two-step
chained builder workflow. -/
theorem builder_validate_agrees_amended_witness :
    (WorkflowBuilder.validate (addAutoFixStep (addTestStep []))).1 =
      (FlowValidator.validate (WorkflowBuilder.build 7 "CI" none
        (addAutoFixStep (addTestStep [])))).valid :=
  builder_validate_agrees_amended 7 "CI" none
    (addAutoFixStep (addTestStep [])) (by decide) (by decide)
    (by decide) (by decide)

/-- The builder's `find`-based adjacency equals `Map.get` on the
one-entry-per-step list (no uniqueness needed: both take the first
match). -/
theorem builder_adjacency_eq_map (steps : List WorkflowStep) (x : String) :
    (match steps.find? fun s => s.id = x with
     | some s => s.dependencies
     | none => []) =
      (mapGet (steps.map fun s => (s.id, s.dependencies)) x).getD [] := by
  rw [mapGet_map_eq_find]
  rcases hf : steps.find? fun s => s.id = x with _ | s <;> simp [hf]

/-- The builder's root loop never exhausts `cycleFuel`. -/
theorem builderRootsLoop_isSome (steps : List WorkflowStep) :
    ∀ (l : List WorkflowStep) (st : DfsSt),
      (∀ s ∈ l, s.id ∈ (cycleUniv steps).toFinset) →
      (builderRootsLoop steps (cycleFuel steps) l (bproj st)).isSome := by
  have hU : ∀ y : String,
      ∀ x ∈ (mapGet (steps.map fun s => (s.id, s.dependencies)) y).getD [],
        x ∈ (cycleUniv steps).toFinset := by
    intro y x hx
    rw [mapGet_map_eq_find] at hx
    rcases hf : steps.find? fun s => s.id = y with _ | s
    · rw [hf] at hx
      simp at hx
    · rw [hf] at hx
      simp at hx
      have hs : s ∈ steps := List.mem_of_find?_eq_some hf
      simp only [List.mem_toFinset, cycleUniv, List.mem_append]
      exact Or.inr (List.mem_flatMap.mpr ⟨s, hs, hx⟩)
  have hfuel : (cycleUniv steps).toFinset.card < cycleFuel steps :=
    Nat.lt_succ_of_le (List.toFinset_card_le _)
  intro l
  induction l with
  | nil =>
      intro st _
      rfl
  | cons step rest ih =>
      intro st hids
      simp only [builderRootsLoop]
      by_cases hv : step.id ∈ st.visited
      · rw [if_pos (show (bproj st).visited.contains step.id = true by
          simpa [bproj] using hv)]
        exact ih st fun s hs => hids s (List.mem_cons_of_mem _ hs)
      · rw [if_neg (show ¬ (bproj st).visited.contains step.id = true by
          simpa [bproj] using hv)]
        have hvis := dfsVisit_isSome
          (steps.map fun s => (s.id, s.dependencies))
          (cycleUniv steps).toFinset hU (cycleFuel steps) step.id
          { st with path := [] } (hids step (List.mem_cons_self _ _)) hv
          (le_trans (dfsMeasure_le_card _ _) (Nat.le_of_lt hfuel))
        obtain ⟨⟨b, st2⟩, h2⟩ := Option.isSome_iff_exists.mp hvis
        have hproj := builderHasCycle_eq_proj steps
          (steps.map fun s => (s.id, s.dependencies))
          (fun x => builder_adjacency_eq_map steps x) (cycleFuel steps)
          step.id { st with path := [] }
        rw [h2] at hproj
        simp only [Option.map] at hproj
        rw [show bproj { st with path := [] } = bproj st from rfl] at hproj
        rw [hproj]
        cases b with
        | true => rfl
        | false => exact ih st2 fun s hs => hids s (List.mem_cons_of_mem _ hs)

/-- `WorkflowBuilder.validate` never exhausts its fuel. -/
theorem builderValidateO_isSome (steps : List WorkflowStep) :
    (WorkflowBuilder.validateO steps).isSome := by
  have hids : ∀ s ∈ steps, s.id ∈ (cycleUniv steps).toFinset := by
    intro s hs
    simp only [List.mem_toFinset, cycleUniv, List.mem_append]
    exact Or.inl (List.mem_map.mpr ⟨s, hs, rfl⟩)
  have h := builderRootsLoop_isSome steps steps ⟨[], [], [], []⟩ hids
  obtain ⟨b, hb⟩ := Option.isSome_iff_exists.mp h
  unfold WorkflowBuilder.validateO
  rw [show builderRootsLoop steps (cycleFuel steps) steps ⟨[], []⟩ =
    some b from hb]
  rfl

/-- The parallel scheduling loop never exhausts its fuel: every productive
round removes at least one pending step. -/
theorem parallelLoop_isSome (options : ExecutionOptions)
    (dur : WorkflowStep → Nat) (steps : List WorkflowStep) :
    ∀ (fuel : Nat) (pending : List String) (ctx : ExecCtx)
      (unh : List String)
      (trace : List (List String × List (String × StepResult))),
      pending.length < fuel →
      (parallelLoop options dur steps fuel pending ctx unh trace).isSome := by
  intro fuel
  induction fuel with
  | zero =>
      intro pending ctx unh trace h
      exact absurd h (Nat.not_lt_zero _)
  | succ fuel ih =>
      intro pending ctx unh trace h
      simp only [parallelLoop]
      by_cases hp : pending.isEmpty
      · rw [if_pos hp]
        rfl
      · rw [if_neg hp]
        by_cases hr : (pending.filter fun stepId =>
            dependenciesMet (findStepById steps stepId)
              ctx.completedSteps).isEmpty
        · rw [if_pos hr]
          rfl
        · rw [if_neg hr]
          apply ih
          have hx : ∃ x ∈ pending, dependenciesMet (findStepById steps x)
              ctx.completedSteps := by
            rcases hl : pending.filter fun stepId =>
                dependenciesMet (findStepById steps stepId)
                  ctx.completedSteps with _ | ⟨x, rest⟩
            · rw [hl] at hr
              simp at hr
            · have hmem : x ∈ pending.filter fun stepId =>
                  dependenciesMet (findStepById steps stepId)
                    ctx.completedSteps := by
                rw [hl]
                exact List.mem_cons_self _ _
              exact ⟨x, (List.mem_filter.mp hmem).1,
                by simpa using (List.mem_filter.mp hmem).2⟩
          obtain ⟨x, hxp, hxd⟩ := hx
          have hlt : (pending.filter fun stepId =>
              !(pending.filter fun s' =>
                dependenciesMet (findStepById steps s')
                  ctx.completedSteps).contains stepId).length <
              pending.length := by
            have hcount := List.length_eq_length_filter_add
              (fun stepId => (pending.filter fun s' =>
                dependenciesMet (findStepById steps s')
                  ctx.completedSteps).contains stepId) (l := pending)
            have hposlen : 0 < (pending.filter fun stepId =>
                (pending.filter fun s' =>
                  dependenciesMet (findStepById steps s')
                    ctx.completedSteps).contains stepId).length := by
              apply List.length_pos_of_mem
              apply List.mem_filter.mpr
              refine ⟨hxp, ?_⟩
              have hxready : x ∈ pending.filter fun s' =>
                  dependenciesMet (findStepById steps s')
                    ctx.completedSteps :=
                List.mem_filter.mpr ⟨hxp, hxd⟩
              simpa using hxready
            omega
          exact Nat.lt_of_lt_of_le hlt (Nat.lt_succ_iff.mp h)

/-- `executeParallelFull` always yields a run (no fuel exhaustion). -/
theorem executeParallelFull_isSome (options : ExecutionOptions)
    (dur : WorkflowStep → Nat) (steps : List WorkflowStep) (ctx : ExecCtx) :
    (executeParallelFull options dur steps ctx).isSome := by
  apply parallelLoop_isSome
  simp [parallelFuel]
